import Mathlib

/-!
# Verification of the nematode repository

Shallow embedding of the `reflex-format` codec and tree evaluator, the
`telemetry` / `telemetry-compute` normalizers, and the `sim` /
`sim-compute` reflex policies and simulators, together with theorems
settling the specification claims.

## Float model

`f32` values are modelled by the inductive type `F32`: a NaN, the two
infinities, or a finite value carried as an exact rational.  All the
operations the claims exercise (`<=`, `<`, `>`, `==`, `-`, `/`, `min`,
`max`, `round`, `clamp`, `as u32`) follow the IEEE-754 / Rust semantics
on this carrier, except that finite arithmetic is exact (no rounding to
a 24-bit mantissa).  No claim in scope depends on mantissa rounding; the
documented exact-match boundary cases (split thresholds, clamp bounds,
degenerate normalizer ranges) are all decided by comparisons, which the
rational carrier reproduces exactly.
-/

inductive F32 : Type where
  | nan : F32
  | inf : F32
  | neginf : F32
  | fin : ℚ → F32
  deriving DecidableEq

namespace F32

/-- IEEE `<=`: false whenever either operand is NaN. -/
def le : F32 → F32 → Bool
  | nan, _ => false
  | _, nan => false
  | neginf, _ => true
  | _, inf => true
  | inf, neginf => false
  | inf, fin _ => false
  | fin _, neginf => false
  | fin a, fin b => a ≤ b

/-- IEEE `<`: false whenever either operand is NaN. -/
def lt : F32 → F32 → Bool
  | nan, _ => false
  | _, nan => false
  | neginf, neginf => false
  | neginf, _ => true
  | inf, _ => false
  | fin _, neginf => false
  | fin _, inf => true
  | fin a, fin b => a < b

/-- IEEE `>`. -/
def gt (x y : F32) : Bool := lt y x

/-- IEEE `==`: false whenever either operand is NaN. -/
def beq : F32 → F32 → Bool
  | nan, _ => false
  | _, nan => false
  | inf, inf => true
  | neginf, neginf => true
  | fin a, fin b => a = b
  | _, _ => false

/-- IEEE subtraction (finite arithmetic exact). -/
def sub : F32 → F32 → F32
  | nan, _ => nan
  | _, nan => nan
  | inf, inf => nan
  | inf, _ => inf
  | neginf, neginf => nan
  | neginf, _ => neginf
  | fin _, inf => neginf
  | fin _, neginf => inf
  | fin a, fin b => fin (a - b)

/-- IEEE division (finite arithmetic exact; zero divisor follows IEEE signs,
with the model carrying a single zero). -/
def div : F32 → F32 → F32
  | nan, _ => nan
  | _, nan => nan
  | inf, inf => nan
  | inf, neginf => nan
  | neginf, inf => nan
  | neginf, neginf => nan
  | inf, fin b => if b < 0 then neginf else inf
  | neginf, fin b => if b < 0 then inf else neginf
  | fin _, inf => fin 0
  | fin _, neginf => fin 0
  | fin a, fin b =>
      if b = 0 then
        if a = 0 then nan else if a < 0 then neginf else inf
      else fin (a / b)

/-- Rust `f32::max`: if one argument is NaN the other is returned. -/
def max : F32 → F32 → F32
  | nan, y => y
  | x, nan => x
  | x, y => if lt x y then y else x

/-- Rust `f32::min`: if one argument is NaN the other is returned. -/
def min : F32 → F32 → F32
  | nan, y => y
  | x, nan => x
  | x, y => if lt y x then y else x

/-- Rust `f32::round`: round half away from zero; NaN and infinities map
to themselves. -/
def round : F32 → F32
  | nan => nan
  | inf => inf
  | neginf => neginf
  | fin q => fin (if 0 ≤ q then (⌊q + 1/2⌋ : ℤ) else (-⌊-q + 1/2⌋ : ℤ))

/-- Rust `f32 as u32`: saturating conversion.  NaN maps to 0, values below
0 to 0, values above `u32::MAX` to `u32::MAX`, finite values truncate
toward zero. -/
def toU32 : F32 → Nat
  | nan => 0
  | inf => 4294967295
  | neginf => 0
  | fin q => if q < 0 then 0 else Min.min ⌊q⌋.toNat 4294967295

/-- Rust `f32::clamp(min, max)`: `assert!(min <= max)` (modelled as `none`
on failure), then `if x < min { min } else if x > max { max } else { x }`.
A NaN input passes both comparisons unchanged and is returned as is. -/
def clamp (x mn mx : F32) : Option F32 :=
  if ¬ le mn mx then none
  else some (if lt x mn then mn else if gt x mx then mx else x)

end F32

/-!
## reflex-format: data model (src/core/reflex-format/src/lib.rs)
-/

/-- `TreeNode` (src/core/reflex-format/src/lib.rs:169).  `featureIdx` is a
`u8` (`0xFF` marks a leaf), `left`/`right` are `u16` child positions and
`threshold` doubles as the leaf value. -/
structure TreeNode where
  featureIdx : Nat
  threshold : F32
  left : Nat
  right : Nat
  deriving DecidableEq

namespace TreeNode

/-- `TreeNode::is_leaf` (lib.rs:181). -/
def isLeaf (n : TreeNode) : Bool := n.featureIdx == 255

/-- `TreeNode::leaf` (lib.rs:185). -/
def leaf (value : F32) : TreeNode := ⟨255, value, 0, 0⟩

/-- `TreeNode::split` (lib.rs:194). -/
def split (featureIdx : Nat) (threshold : F32) (left right : Nat) : TreeNode :=
  ⟨featureIdx, threshold, left, right⟩

end TreeNode

/-- `OutputBounds` (lib.rs:206). -/
structure OutputBounds where
  min : List F32
  max : List F32
  deriving DecidableEq

/-- `ReflexMetadata` (lib.rs:213).  Rust `String`s are modelled as lists of
Unicode scalar values. -/
structure ReflexMetadata where
  createdAt : List Nat
  trainerCommit : List Nat
  featureSchema : List Nat
  telemetryHash : List Nat
  lambda : F32
  notes : List Nat
  deriving DecidableEq

/-- `ReflexHeader` (lib.rs:27).  Fixed-width integer fields are `Nat`s;
encoding reduces them modulo the field width. -/
structure ReflexHeader where
  magic : List Nat
  version : Nat
  modelType : Nat
  featureCount : Nat
  outputCount : Nat
  createdAtUnix : Nat
  modelSizeBytes : Nat
  boundsSizeBytes : Nat
  metadataSizeBytes : Nat
  deriving DecidableEq

/-- `Reflex` (lib.rs:224). -/
structure Reflex where
  header : ReflexHeader
  trees : List (List TreeNode)
  bounds : OutputBounds
  metadata : ReflexMetadata
  deriving DecidableEq

/-!
## Tree evaluation and inference (lib.rs:336-372)

`eval_tree` is a loop that may diverge on a cyclic tree, so it is embedded
with fuel: `none` covers both a Rust panic (child or feature index out of
range) and fuel exhaustion; `some v` means the loop returned `v`.
-/

/-- `Reflex::eval_tree` (lib.rs:358), fuel-indexed, starting at node
`idx`. -/
def evalTreeN (tree : List TreeNode) (features : List F32) : Nat → Nat → Option F32
  | 0, _ => none
  | fuel + 1, idx =>
    match tree[idx]? with
    | none => none
    | some node =>
      if node.isLeaf then some node.threshold
      else
        match features[node.featureIdx]? with
        | none => none
        | some fv =>
          evalTreeN tree features fuel (if F32.le fv node.threshold then node.left else node.right)

/-- The clamping loop of `Reflex::infer` (lib.rs:351-354): element `i` of
the outputs is clamped to `bounds.min[i]`/`bounds.max[i]`; an index out of
either bounds array, or a clamp assertion failure, is a panic (`none`). -/
def clampLoop (mins maxs : List F32) : List F32 → Nat → Option (List F32)
  | [], _ => some []
  | o :: rest, i => do
    let mn ← mins[i]?
    let mx ← maxs[i]?
    let c ← F32.clamp o mn mx
    let tail ← clampLoop mins maxs rest (i + 1)
    pure (c :: tail)

/-- The output-gathering loop of `Reflex::infer` (lib.rs:345-348): one
output per tree, in order. -/
def evalTrees (trees : List (List TreeNode)) (features : List F32) (fuel : Nat) :
    Option (List F32) :=
  match trees with
  | [] => some []
  | t :: ts => do
    let v ← evalTreeN t features fuel 0
    let rest ← evalTrees ts features fuel
    pure (v :: rest)

/-- `Reflex::infer` (lib.rs:336), fuel-indexed.  `none` models a panic
(feature-count assertion, evaluation panic, clamp panic) or exhaustion of
the evaluation fuel. -/
def Reflex.inferN (r : Reflex) (features : List F32) (fuel : Nat) : Option (List F32) :=
  if features.length ≠ r.header.featureCount then none
  else do
    let outputs ← evalTrees r.trees features fuel
    clampLoop r.bounds.min r.bounds.max outputs 0

/-!
## Concrete fixtures for the evaluator claims
-/

/-- The single test tree of spec §8: `[Split(0, 0.5, →1, →2), Leaf(10.0), Leaf(20.0)]`. -/
def specTree : List TreeNode :=
  [TreeNode.split 0 (F32.fin (1/2)) 1 2, TreeNode.leaf (F32.fin 10), TreeNode.leaf (F32.fin 20)]

/-- A header with the given feature/output counts (other fields as in the
repository's round-trip test). -/
def specHeader (fc oc : Nat) : ReflexHeader :=
  ⟨[78, 69, 77, 49], 1, 0, fc, oc, 1728000000, 0, 0, 0⟩

/-- Metadata fixture (all strings empty, `lambda = 0`). -/
def specMeta : ReflexMetadata := ⟨[], [], [], [], F32.fin 0, []⟩

/-- The spec §8 evaluator fixture: one tree, bounds `min=[0], max=[100]`. -/
def specReflex : Reflex :=
  ⟨specHeader 1 1, [specTree], ⟨[F32.fin 0], [F32.fin 100]⟩, specMeta⟩

/-- A reflex whose single tree is a NaN leaf, bounds `min=[0], max=[100]`. -/
def nanReflex : Reflex :=
  ⟨specHeader 1 1, [[TreeNode.leaf F32.nan]], ⟨[F32.fin 0], [F32.fin 100]⟩, specMeta⟩

example : Reflex.inferN specReflex [F32.fin (3/10)] 10 = some [F32.fin 10] := by
  with_unfolding_all decide
example : Reflex.inferN specReflex [F32.fin (1/2)] 10 = some [F32.fin 10] := by
  with_unfolding_all decide
example : Reflex.inferN specReflex [F32.fin (7/10)] 10 = some [F32.fin 20] := by
  with_unfolding_all decide
example : Reflex.inferN nanReflex [F32.fin 0] 5 = some [F32.nan] := by
  with_unfolding_all decide

/-!
## Descent predicate and the evaluator claims
-/

/-- The deterministic descent of `eval_tree`: starting at node `idx`, the
walk reaches a leaf of value `v` after `n` comparison steps, every visited
node position being inside the tree and every visited feature index inside
the feature vector. -/
inductive ReachesLeaf (tree : List TreeNode) (features : List F32) :
    Nat → F32 → Nat → Prop where
  | leaf : ∀ idx node, tree[idx]? = some node → node.isLeaf = true →
      ReachesLeaf tree features idx node.threshold 0
  | step : ∀ idx node fv v n, tree[idx]? = some node → node.isLeaf = false →
      features[node.featureIdx]? = some fv →
      ReachesLeaf tree features
        (if F32.le fv node.threshold then node.left else node.right) v n →
      ReachesLeaf tree features idx v (n + 1)

theorem evalTreeN_of_reachesLeaf {tree : List TreeNode} {features : List F32}
    {idx : Nat} {v : F32} {n : Nat} (h : ReachesLeaf tree features idx v n) :
    ∀ fuel, n < fuel → evalTreeN tree features fuel idx = some v := by
  induction h with
  | leaf idx node hget hleaf =>
    intro fuel hfuel
    match fuel, hfuel with
    | fuel + 1, _ => simp [evalTreeN, hget, hleaf]
  | step idx node fv v n hget hleaf hfv _ ih =>
    intro fuel hfuel
    match fuel, hfuel with
    | fuel + 1, hfuel =>
      have : n < fuel := by omega
      simp [evalTreeN, hget, hleaf, hfv, ih fuel this]

theorem evalTrees_getElem? {trees : List (List TreeNode)} {features : List F32}
    {fuel : Nat} {outs : List F32} (h : evalTrees trees features fuel = some outs) :
    ∀ (i : Nat) (t : List TreeNode), trees[i]? = some t →
      outs[i]? = evalTreeN t features fuel 0 := by
  induction trees generalizing outs with
  | nil => intro i t hit; simp at hit
  | cons t0 ts ih =>
    intro i t hit
    simp only [evalTrees, Option.bind_eq_bind, Option.bind_eq_some] at h
    obtain ⟨v, hv, rest, hrest, hout⟩ := h
    simp only [Option.pure_def, Option.some.injEq] at hout
    subst hout
    match i with
    | 0 => simp_all
    | i + 1 => simpa using ih hrest i t (by simpa using hit)

theorem clampLoop_getElem?_nan {mins maxs : List F32} :
    ∀ {outs : List F32} {i : Nat} {res : List F32},
    clampLoop mins maxs outs i = some res →
    ∀ (j : Nat), outs[j]? = some F32.nan → res[j]? = some F32.nan := by
  intro outs
  induction outs with
  | nil => intro i res _ j hj; simp at hj
  | cons o rest ih =>
    intro i res h j hj
    simp only [clampLoop, Option.bind_eq_bind, Option.bind_eq_some] at h
    obtain ⟨mn, hmn, mx, hmx, c, hc, tail, htail, hres⟩ := h
    simp only [Option.pure_def, Option.some.injEq] at hres
    subst hres
    match j with
    | 0 =>
      simp only [List.getElem?_cons_zero, Option.some.injEq] at hj ⊢
      subst hj
      simp only [F32.clamp] at hc
      split at hc
      · simp at hc
      · have h1 : F32.lt F32.nan mn = false := by cases mn <;> rfl
        have h2 : F32.lt mx F32.nan = false := by cases mx <;> rfl
        simp only [F32.gt, h1, h2, Bool.false_eq_true, if_false,
          Option.some.injEq] at hc
        subst hc
        rfl
    | j + 1 =>
      simpa using ih htail j (by simpa using hj)

/-- C4: for every tree whose (deterministic) descent from node 0 reaches a
leaf of value `v` after finitely many steps — all visited child positions
inside the tree and all visited feature indices inside the feature
vector — `eval_tree` terminates (any fuel beyond the path length suffices)
and returns the value stored in the reached leaf. -/
theorem claim_C4_eval_tree_terminates (tree : List TreeNode) (features : List F32)
    (v : F32) (n : Nat) (h : ReachesLeaf tree features 0 v n) :
    ∀ fuel, n < fuel → evalTreeN tree features fuel 0 = some v :=
  fun fuel hf => evalTreeN_of_reachesLeaf h fuel hf

theorem claim_C4_witness :
    evalTreeN specTree [F32.fin (3/10)] 2 0 = some (F32.fin 10) := by
  have hle : F32.le (F32.fin (3/10)) (F32.fin (1/2)) = true := by
    with_unfolding_all decide
  refine claim_C4_eval_tree_terminates specTree [F32.fin (3/10)] (F32.fin 10) 1 ?_ 2 (by omega)
  refine ReachesLeaf.step 0 (TreeNode.split 0 (F32.fin (1/2)) 1 2) (F32.fin (3/10))
    (F32.fin 10) 0 rfl rfl rfl ?_
  simp only [TreeNode.split, hle, if_true]
  exact ReachesLeaf.leaf 1 (TreeNode.leaf (F32.fin 10)) rfl rfl

/-- C5 as amended: descent at an internal node goes to `left` when the
feature value is `<=` the threshold and to `right` otherwise, and on the
spec §8 fixture (tree `[Split(0, 0.5, 1, 2), Leaf 10, Leaf 20]`, bounds
`[0]..[100]`) inference gives `[10.0]` at `[0.3]`, `[10.0]` at the
boundary `[0.5]`, and `[20.0]` at `[0.7]`. -/
theorem claim_C5_descent_boundary :
    (∀ (tree : List TreeNode) (features : List F32) (fuel idx : Nat)
      (node : TreeNode) (fv : F32),
      tree[idx]? = some node → node.isLeaf = false →
      features[node.featureIdx]? = some fv →
      evalTreeN tree features (fuel + 1) idx =
        evalTreeN tree features fuel
          (if F32.le fv node.threshold then node.left else node.right))
    ∧ Reflex.inferN specReflex [F32.fin (3/10)] 10 = some [F32.fin 10]
    ∧ Reflex.inferN specReflex [F32.fin (1/2)] 10 = some [F32.fin 10]
    ∧ Reflex.inferN specReflex [F32.fin (7/10)] 10 = some [F32.fin 20] := by
  refine ⟨?_, ?_, ?_, ?_⟩
  · intro tree features fuel idx node fv hget hleaf hfv
    simp [evalTreeN, hget, hleaf, hfv]
  · with_unfolding_all decide
  · with_unfolding_all decide
  · with_unfolding_all decide

theorem claim_C5_witness :
    evalTreeN specTree [F32.fin (3/10)] 2 0 =
      evalTreeN specTree [F32.fin (3/10)] 1
        (if F32.le (F32.fin (3/10)) (F32.fin (1/2)) then 1 else 2) :=
  claim_C5_descent_boundary.1 specTree [F32.fin (3/10)] 1 0
    (TreeNode.split 0 (F32.fin (1/2)) 1 2) (F32.fin (3/10)) rfl rfl rfl

/-- C3 as amended: a NaN tree output passes through the element-wise clamp
unchanged (Rust `f32::clamp` returns NaN for a NaN input), so the clamped
output for such a channel is NaN, not the lower bound. -/
theorem claim_C3_amended_nan_propagates (r : Reflex) (features : List F32)
    (fuel i : Nat) (tree : List TreeNode) (out : List F32)
    (htree : r.trees[i]? = some tree)
    (hnan : evalTreeN tree features fuel 0 = some F32.nan)
    (hout : r.inferN features fuel = some out) :
    out[i]? = some F32.nan := by
  unfold Reflex.inferN at hout
  split at hout
  · simp at hout
  · simp only [Option.bind_eq_bind, Option.bind_eq_some] at hout
    obtain ⟨outputs, houtputs, hclamp⟩ := hout
    have : outputs[i]? = some F32.nan := by
      rw [evalTrees_getElem? houtputs i tree htree, hnan]
    exact clampLoop_getElem?_nan hclamp i this

/-- C3 as stated is false: on a reflex whose single tree is a NaN leaf with
bounds `min = [0]`, `max = [100]`, `infer` yields `[NaN]`, not the lower
bound `[0]`. -/
theorem claim_C3_counterexample :
    Reflex.inferN nanReflex [F32.fin 0] 5 = some [F32.nan]
    ∧ nanReflex.bounds.min[0]? = some (F32.fin 0)
    ∧ Reflex.inferN nanReflex [F32.fin 0] 5 ≠ some [F32.fin 0] := by
  refine ⟨by with_unfolding_all decide, by with_unfolding_all decide, ?_⟩
  with_unfolding_all decide

theorem claim_C3_witness : ([F32.nan] : List F32)[0]? = some F32.nan :=
  claim_C3_amended_nan_propagates nanReflex [F32.fin 0] 5 0
    [TreeNode.leaf F32.nan] [F32.nan] rfl (by with_unfolding_all decide)
    (by with_unfolding_all decide)

/-!
## Telemetry normalizer (src/core/telemetry/src/lib.rs:61-97)

The `Normalizer` type and its `normalize` method are textually identical
in the `telemetry` and `telemetry-compute` crates
(src/core/telemetry/src/lib.rs:85-96 and
src/core/telemetry-compute/src/lib.rs:85-96); they are embedded once.
The Rust arrays are `[f32; 10]`; lists of length 10 model them, with the
length-10 requirement carried as a hypothesis where it matters.
-/

/-- `TelemetrySample::FEATURE_COUNT` / `ComputeTelemetry::FEATURE_COUNT`. -/
def FEATURE_COUNT : Nat := 10

/-- `Normalizer` (telemetry lib.rs:63, telemetry-compute lib.rs:63). -/
structure Normalizer where
  min : List F32
  max : List F32
  deriving DecidableEq

/-- `Normalizer::normalize` (telemetry lib.rs:85-96): per feature `i`,
`range = max[i] - min[i]`; if `range > 0.0` then
`(features[i] - min[i]) / range` else `0.5`. -/
def Normalizer.normalize (nz : Normalizer) (features : List F32) : List F32 :=
  (List.range FEATURE_COUNT).map fun i =>
    let range := F32.sub (nz.max.getD i F32.nan) (nz.min.getD i F32.nan)
    if F32.gt range (F32.fin 0) then
      F32.div (F32.sub (features.getD i F32.nan) (nz.min.getD i F32.nan)) range
    else
      F32.fin (1/2)

theorem sub_gt_zero_of_lt {mn mx : F32} (h : F32.lt mn mx = true) :
    F32.gt (F32.sub mx mn) (F32.fin 0) = true := by
  cases mn <;> cases mx <;>
    simp_all [F32.lt, F32.sub, F32.gt, decide_eq_true_eq, sub_pos]

theorem sub_not_gt_zero_of_beq {mn mx : F32} (h : F32.beq mx mn = true) :
    F32.gt (F32.sub mx mn) (F32.fin 0) = false := by
  cases mn <;> cases mx <;>
    simp_all [F32.beq, F32.sub, F32.gt, F32.lt, decide_eq_true_eq]

/-- C6: for a normalizer with `min[i] <= max[i]` at every feature, the
normalized vector is `(x[i] - min[i]) / (max[i] - min[i])` at every feature
where `min[i] < max[i]`, and `0.5` at every feature where
`max[i] == min[i]` (degenerate range). -/
theorem claim_C6_normalize (nz : Normalizer) (features : List F32) (i : Nat)
    (hi : i < FEATURE_COUNT)
    (hle : ∀ j, j < FEATURE_COUNT →
      F32.le (nz.min.getD j F32.nan) (nz.max.getD j F32.nan) = true) :
    (F32.lt (nz.min.getD i F32.nan) (nz.max.getD i F32.nan) = true →
      (nz.normalize features)[i]? =
        some (F32.div
          (F32.sub (features.getD i F32.nan) (nz.min.getD i F32.nan))
          (F32.sub (nz.max.getD i F32.nan) (nz.min.getD i F32.nan))))
    ∧ (F32.beq (nz.max.getD i F32.nan) (nz.min.getD i F32.nan) = true →
      (nz.normalize features)[i]? = some (F32.fin (1/2))) := by
  have hmap : (nz.normalize features)[i]? =
      some (if F32.gt (F32.sub (nz.max.getD i F32.nan) (nz.min.getD i F32.nan))
            (F32.fin 0) then
          F32.div (F32.sub (features.getD i F32.nan) (nz.min.getD i F32.nan))
            (F32.sub (nz.max.getD i F32.nan) (nz.min.getD i F32.nan))
        else F32.fin (1/2)) := by
    unfold Normalizer.normalize
    rw [List.getElem?_map, List.getElem?_range hi]
    rfl
  constructor
  · intro hlt
    rw [hmap, if_pos (sub_gt_zero_of_lt hlt)]
  · intro hbeq
    rw [hmap, if_neg (by rw [sub_not_gt_zero_of_beq hbeq]; exact Bool.false_ne_true)]

/-- Normalizer fixture: feature 1 has a degenerate range, the others span
`[0, 100]`. -/
def witNormalizer : Normalizer :=
  ⟨[F32.fin 0, F32.fin 5, F32.fin 0, F32.fin 0, F32.fin 0,
    F32.fin 0, F32.fin 0, F32.fin 0, F32.fin 0, F32.fin 0],
   [F32.fin 100, F32.fin 5, F32.fin 100, F32.fin 100, F32.fin 100,
    F32.fin 100, F32.fin 100, F32.fin 100, F32.fin 100, F32.fin 100]⟩

/-- Feature-vector fixture. -/
def witFeatures : List F32 :=
  [F32.fin 50, F32.fin 7, F32.fin 0, F32.fin 0, F32.fin 0,
   F32.fin 0, F32.fin 0, F32.fin 0, F32.fin 0, F32.fin 0]

theorem claim_C6_witness :
    (witNormalizer.normalize witFeatures)[0]? =
      some (F32.div
        (F32.sub (witFeatures.getD 0 F32.nan) (witNormalizer.min.getD 0 F32.nan))
        (F32.sub (witNormalizer.max.getD 0 F32.nan) (witNormalizer.min.getD 0 F32.nan)))
    ∧ (witNormalizer.normalize witFeatures)[1]? = some (F32.fin (1/2)) :=
  ⟨(claim_C6_normalize witNormalizer witFeatures 0 (by decide)
      (by with_unfolding_all decide)).1
      (by with_unfolding_all decide),
   (claim_C6_normalize witNormalizer witFeatures 1 (by decide)
      (by with_unfolding_all decide)).2
      (by with_unfolding_all decide)⟩

/-!
## Transport simulator types and reflex policy (src/sim/src/lib.rs)

Time is modelled in microseconds as `Nat` (`Instant` is monotonic;
`duration_since` saturates at zero, matching `Nat` subtraction).
`u32 -> f32` and `f64 -> f32` casts are exact in the rational carrier
(mantissa rounding elided; no claim in scope depends on it).
-/

/-- `TelemetrySample` (src/core/telemetry/src/lib.rs:11). -/
structure TelemetrySample where
  timestampUs : Nat
  queueDepth : Nat
  enqueueRate : F32
  dequeueRate : F32
  latencyP50Us : F32
  latencyP95Us : F32
  bytesInPerSec : F32
  bytesOutPerSec : F32
  packetSizeMean : F32
  packetSizeVar : F32
  rttEwmaUs : F32
  deriving DecidableEq

/-- `TelemetrySample::to_features` (telemetry lib.rs:29). -/
def TelemetrySample.toFeatures (t : TelemetrySample) : List F32 :=
  [F32.fin t.queueDepth, t.enqueueRate, t.dequeueRate, t.latencyP50Us,
   t.latencyP95Us, t.bytesInPerSec, t.bytesOutPerSec, t.packetSizeMean,
   t.packetSizeVar, t.rttEwmaUs]

/-- `FlushDecision` (src/sim/src/lib.rs:20): two `u32` fields. -/
structure FlushDecision where
  threshold : Nat
  maxDelayUs : Nat
  deriving DecidableEq

namespace Sim

/-- `ReflexPolicy` (src/sim/src/lib.rs:61). -/
structure ReflexPolicy where
  reflex : Reflex
  normalizer : Normalizer
  hysteresisThreshold : F32
  lastDecision : Option FlushDecision
  lastDecisionTime : Option Nat
  holdTime : Nat
  deriving DecidableEq

/-- The state constructed by `ReflexPolicy::load` (lib.rs:75-83):
no cached decision, no decision time, `hold_time` = 300 ms = 300000 µs,
`hysteresis_threshold` = 0.05. -/
def ReflexPolicy.init (r : Reflex) (nz : Normalizer) : ReflexPolicy :=
  ⟨r, nz, F32.fin (1/20), none, none, 300000⟩

/-- The output-decoding of `decide` (lib.rs:104-106): outputs 0 and 1
rounded to nearest and cast `as u32` (saturating). -/
def decodeFlush (o0 o1 : F32) : FlushDecision :=
  ⟨F32.toU32 (F32.round o0), F32.toU32 (F32.round o1)⟩

/-- The recompute path of `ReflexPolicy::decide` (lib.rs:97-116):
normalize the features, run inference, decode outputs 0 and 1, cache the
decision.  `none` models a panic (inference panic or a missing output). -/
def ReflexPolicy.decideFresh (p : ReflexPolicy) (now : Nat) (telem : TelemetrySample)
    (fuel : Nat) : Option (FlushDecision × ReflexPolicy) :=
  let features := telem.toFeatures
  let normFeatures := p.normalizer.normalize features
  match p.reflex.inferN normFeatures fuel with
  | none => none
  | some outputs =>
    match outputs[0]?, outputs[1]? with
    | some o0, some o1 =>
      let d := decodeFlush o0 o1
      some (d, { p with lastDecision := some d, lastDecisionTime := some now })
    | _, _ => none

/-- `ReflexPolicy::decide` (lib.rs:87-118).  The hold-time branch
(lib.rs:91-95) returns the cached decision when `now - last_time <
hold_time`; the cache `unwrap` on an inconsistent state is `none`. -/
def ReflexPolicy.decide (p : ReflexPolicy) (now : Nat) (telem : TelemetrySample)
    (fuel : Nat) : Option (FlushDecision × ReflexPolicy) :=
  match p.lastDecisionTime with
  | some lastTime =>
    if now - lastTime < p.holdTime then
      match p.lastDecision with
      | some d => some (d, p)
      | none => none
    else p.decideFresh now telem fuel
  | none => p.decideFresh now telem fuel

/-- `FakeTransport::tick`'s flush condition (src/sim/src/lib.rs:234-235):
flush iff `queue.len() >= threshold` or the oldest packet's age `>=
max_delay_us`. -/
def shouldFlush (queueLen oldestAgeUs : Nat) (d : FlushDecision) : Bool :=
  decide (queueLen ≥ d.threshold) || decide (oldestAgeUs ≥ d.maxDelayUs)

end Sim

/-!
## Compute simulator types and reflex policy (src/sim-compute/src/lib.rs)
-/

/-- `ComputeTelemetry` (src/core/telemetry-compute/src/lib.rs:11). -/
structure ComputeTelemetry where
  timestampUs : Nat
  runqLen : Nat
  arrivalRate : F32
  completionRate : F32
  taskTimeP50Us : F32
  taskTimeP95Us : F32
  workerUtil : F32
  ctxSwitchesPerSec : F32
  taskSizeMean : F32
  taskSizeVar : F32
  idleWorkerCount : Nat
  deriving DecidableEq

/-- `ComputeTelemetry::to_features` (telemetry-compute lib.rs:29). -/
def ComputeTelemetry.toFeatures (t : ComputeTelemetry) : List F32 :=
  [F32.fin t.runqLen, t.arrivalRate, t.completionRate, t.taskTimeP50Us,
   t.taskTimeP95Us, t.workerUtil, t.ctxSwitchesPerSec, t.taskSizeMean,
   t.taskSizeVar, F32.fin t.idleWorkerCount]

/-- `PoolSizeDecision` (src/sim-compute/src/lib.rs:21). -/
structure PoolSizeDecision where
  nWorkers : Nat
  deriving DecidableEq

namespace SimCompute

/-- `ReflexPolicy` (src/sim-compute/src/lib.rs:56). -/
structure ReflexPolicy where
  reflex : Reflex
  normalizer : Normalizer
  lastDecision : Option PoolSizeDecision
  lastDecisionTime : Option Nat
  holdTime : Nat
  deriving DecidableEq

/-- The state constructed by `ReflexPolicy::load` (lib.rs:69-76):
no cached decision, no decision time, `hold_time` = 500 ms = 500000 µs. -/
def ReflexPolicy.init (r : Reflex) (nz : Normalizer) : ReflexPolicy :=
  ⟨r, nz, none, none, 500000⟩

/-- The output-decoding of `decide` (lib.rs:98):
`outputs[0].round().max(1.0).min(64.0) as u32`. -/
def decodeNWorkers (o0 : F32) : Nat :=
  F32.toU32 (F32.min (F32.max (F32.round o0) (F32.fin 1)) (F32.fin 64))

/-- The recompute path of `ReflexPolicy::decide` (lib.rs:90-105). -/
def ReflexPolicy.decideFresh (p : ReflexPolicy) (now : Nat) (telem : ComputeTelemetry)
    (fuel : Nat) : Option (PoolSizeDecision × ReflexPolicy) :=
  let features := telem.toFeatures
  let normFeatures := p.normalizer.normalize features
  match p.reflex.inferN normFeatures fuel with
  | none => none
  | some outputs =>
    match outputs[0]? with
    | some o0 =>
      let d : PoolSizeDecision := ⟨decodeNWorkers o0⟩
      some (d, { p with lastDecision := some d, lastDecisionTime := some now })
    | none => none

/-- `ReflexPolicy::decide` (lib.rs:80-107), hold-time branch at
lib.rs:84-88. -/
def ReflexPolicy.decide (p : ReflexPolicy) (now : Nat) (telem : ComputeTelemetry)
    (fuel : Nat) : Option (PoolSizeDecision × ReflexPolicy) :=
  match p.lastDecisionTime with
  | some lastTime =>
    if now - lastTime < p.holdTime then
      match p.lastDecision with
      | some d => some (d, p)
      | none => none
    else p.decideFresh now telem fuel
  | none => p.decideFresh now telem fuel

end SimCompute

/-!
## Hold-time spacing, generically

Both reflex policies implement the same hold-time mechanism.  The spacing
argument is proved once for an abstract stepped state machine and then
instantiated with each policy's `decide`.
-/

/-- A sequence of steps at given times, threading the state; `none` if any
step fails. -/
def runHold {S I D : Type} (step : S → Nat → I → Option (D × S)) :
    S → List (Nat × I) → Option (List (Nat × D))
  | _, [] => some []
  | s, (t, i) :: rest =>
    match step s t i with
    | none => none
    | some (d, s') =>
      match runHold step s' rest with
      | none => none
      | some ds => some ((t, d) :: ds)

/-- The times at which the emitted decision differs from the previously
emitted one, relative to baseline `d0`. -/
def changeTimesFrom {D : Type} [DecidableEq D] (d0 : D) :
    List (Nat × D) → List Nat
  | [] => []
  | (t, d) :: rest => if d = d0 then changeTimesFrom d0 rest else t :: changeTimesFrom d rest

/-- The times at which the emitted decision differs from the previously
emitted one (the first emission is the baseline, not a change). -/
def changeTimes {D : Type} [DecidableEq D] : List (Nat × D) → List Nat
  | [] => []
  | (_, d0) :: rest => changeTimesFrom d0 rest

section HoldSpacing

variable {S I D : Type} [DecidableEq D]
variable (step : S → Nat → I → Option (D × S))
variable (good : S → Prop) (cache : S → Option D) (ctime : S → Option Nat) (hold : Nat)

/-- Characterization of a hold-time step: either the hold branch returns
the cache and leaves the state alone (possible only when a decision time
is recorded), or the decision is recomputed, cached and stamped with `now`,
which requires the hold time to have elapsed since any recorded stamp. -/
def HoldStep : Prop :=
  ∀ s now i d s', good s → step s now i = some (d, s') →
    good s' ∧
    ((s' = s ∧ cache s = some d ∧ ctime s ≠ none) ∨
     (cache s' = some d ∧ ctime s' = some now ∧
       (∀ lt, ctime s = some lt → hold ≤ now - lt)))

theorem runHold_changesFrom_spaced (H : HoldStep step good cache ctime hold) :
    ∀ (inputs : List (Nat × I)) (s : S) (d0 : D) (s0 : Nat)
      (outs : List (Nat × D)),
    runHold step s inputs = some outs →
    good s → cache s = some d0 → ctime s = some s0 →
    List.Pairwise (· ≤ ·) (inputs.map Prod.fst) →
    (∀ t ∈ inputs.map Prod.fst, s0 ≤ t) →
    (∀ x ∈ changeTimesFrom d0 outs, s0 + hold ≤ x) ∧
    List.Chain' (fun a b => a + hold ≤ b) (changeTimesFrom d0 outs) := by
  intro inputs
  induction inputs with
  | nil =>
    intro s d0 s0 outs hrun _ _ _ _ _
    simp only [runHold] at hrun
    obtain rfl : ([] : List (Nat × D)) = outs := by simpa using hrun
    exact ⟨by simp [changeTimesFrom], by simp [changeTimesFrom]⟩
  | cons ti rest ih =>
    obtain ⟨t, i⟩ := ti
    intro s d0 s0 outs hrun hgood hcache hctime hsorted hbound
    simp only [runHold] at hrun
    rcases hstep : step s t i with _ | ⟨d, s'⟩ <;> simp only [hstep] at hrun
    · simp at hrun
    rcases hrest : runHold step s' rest with _ | ds <;> simp only [hrest] at hrun
    · simp at hrun
    obtain rfl : (t, d) :: ds = outs := by simpa using hrun
    have hs0t : s0 ≤ t := hbound t (by simp)
    have hcons : List.Pairwise (· ≤ ·) (t :: rest.map Prod.fst) := by
      simpa using hsorted
    have hsorted' : List.Pairwise (· ≤ ·) (rest.map Prod.fst) :=
      (List.pairwise_cons.mp hcons).2
    have hheadle : ∀ u ∈ rest.map Prod.fst, t ≤ u :=
      (List.pairwise_cons.mp hcons).1
    obtain ⟨hgood', hcases⟩ := H s t i d s' hgood hstep
    rcases hcases with ⟨rfl, hcd, _⟩ | ⟨hcd', hct', hsp⟩
    · have hd : d = d0 := by rw [hcache] at hcd; exact (Option.some.injEq _ _ ▸ hcd).symm ▸ rfl
      subst hd
      have := ih s' d s0 ds hrest hgood' hcd hctime hsorted'
        (fun u hu => le_trans hs0t (hheadle u hu))
      simpa [changeTimesFrom] using this
    · have hanchor : hold ≤ t - s0 := hsp s0 hctime
      have ht : s0 + hold ≤ t := by omega
      obtain ⟨ihb, ihc⟩ := ih s' d t ds hrest hgood' hcd' hct' hsorted' hheadle
      by_cases hd : d = d0
      · subst hd
        refine ⟨?_, ?_⟩
        · intro x hx
          simp only [changeTimesFrom, if_pos rfl] at hx
          exact le_trans (by omega) (ihb x hx)
        · simpa [changeTimesFrom] using ihc
      · refine ⟨?_, ?_⟩
        · intro x hx
          simp only [changeTimesFrom, if_neg hd, List.mem_cons] at hx
          rcases hx with rfl | hx
          · exact ht
          · exact le_trans (by omega) (ihb x hx)
        · simp only [changeTimesFrom, if_neg hd]
          rw [List.chain'_cons']
          refine ⟨?_, ihc⟩
          intro y hy
          have hymem : y ∈ changeTimesFrom d ds := List.mem_of_mem_head? hy
          exact le_trans (by omega) (ihb y hymem)

theorem runHold_changeTimes_spaced (H : HoldStep step good cache ctime hold)
    (s : S) (inputs : List (Nat × I)) (outs : List (Nat × D))
    (hrun : runHold step s inputs = some outs)
    (hgood : good s) (hctime : ctime s = none)
    (hsorted : List.Pairwise (· ≤ ·) (inputs.map Prod.fst)) :
    List.Chain' (fun a b => a + hold ≤ b) (changeTimes outs) := by
  cases inputs with
  | nil =>
    simp only [runHold] at hrun
    obtain rfl : ([] : List (Nat × D)) = outs := by simpa using hrun
    simp [changeTimes]
  | cons ti rest =>
    obtain ⟨t, i⟩ := ti
    simp only [runHold] at hrun
    rcases hstep : step s t i with _ | ⟨d, s'⟩ <;> simp only [hstep] at hrun
    · simp at hrun
    rcases hrest : runHold step s' rest with _ | ds <;> simp only [hrest] at hrun
    · simp at hrun
    obtain rfl : (t, d) :: ds = outs := by simpa using hrun
    obtain ⟨hgood', hcases⟩ := H s t i d s' hgood hstep
    rcases hcases with ⟨_, _, hne⟩ | ⟨hcd', hct', _⟩
    · exact absurd hctime hne
    · have hcons : List.Pairwise (· ≤ ·) (t :: rest.map Prod.fst) := by
        simpa using hsorted
      have hsorted' : List.Pairwise (· ≤ ·) (rest.map Prod.fst) :=
        (List.pairwise_cons.mp hcons).2
      have hheadle : ∀ u ∈ rest.map Prod.fst, t ≤ u :=
        (List.pairwise_cons.mp hcons).1
      have := runHold_changesFrom_spaced step good cache ctime hold H rest s' d t ds
        hrest hgood' hcd' hct' hsorted' hheadle
      simpa [changeTimes] using this.2

end HoldSpacing

theorem Sim.ReflexPolicy.decideFresh_spec_transport {p : Sim.ReflexPolicy} {now : Nat}
    {tel : TelemetrySample} {fuel : Nat} {d : FlushDecision} {p' : Sim.ReflexPolicy}
    (h : p.decideFresh now tel fuel = some (d, p')) :
    p' = { p with lastDecision := some d, lastDecisionTime := some now } := by
  unfold Sim.ReflexPolicy.decideFresh at h
  rcases hinf : p.reflex.inferN (p.normalizer.normalize tel.toFeatures) fuel with _ | outputs
  · simp [hinf] at h
  · simp only [hinf] at h
    rcases h0 : outputs[0]? with _ | o0
    · simp [h0] at h
    · rcases h1 : outputs[1]? with _ | o1
      · simp [h0, h1] at h
      · simp only [h0, h1, Option.some.injEq, Prod.mk.injEq] at h
        rw [← h.1, ← h.2]

theorem sim_decide_holdStep (fuel : Nat) :
    HoldStep (fun s now tel => Sim.ReflexPolicy.decide s now tel fuel)
      (fun s => s.holdTime = 300000) (fun s => s.lastDecision)
      (fun s => s.lastDecisionTime) 300000 := by
  intro s now i d s' hgood hstep
  simp only [Sim.ReflexPolicy.decide] at hstep
  rcases hlt : s.lastDecisionTime with _ | lastTime <;> simp only [hlt] at hstep
  · have hp' := Sim.ReflexPolicy.decideFresh_spec_transport hstep
    subst hp'
    exact ⟨hgood, Or.inr ⟨rfl, rfl, fun lt h => by simp [hlt] at h⟩⟩
  · split at hstep
    · rcases hcd : s.lastDecision with _ | d0 <;> simp only [hcd] at hstep
      · simp at hstep
      · simp only [Option.some.injEq, Prod.mk.injEq] at hstep
        obtain ⟨rfl, rfl⟩ := hstep
        exact ⟨hgood, Or.inl ⟨rfl, hcd, by simp [hlt]⟩⟩
    · rename_i hcond
      have hp' := Sim.ReflexPolicy.decideFresh_spec_transport hstep
      subst hp'
      refine ⟨hgood, Or.inr ⟨rfl, rfl, fun lt h => ?_⟩⟩
      simp only [hlt, Option.some.injEq] at h
      subst h
      rw [hgood] at hcond
      omega

theorem SimCompute.ReflexPolicy.decideFresh_spec_compute {p : SimCompute.ReflexPolicy}
    {now : Nat} {tel : ComputeTelemetry} {fuel : Nat} {d : PoolSizeDecision}
    {p' : SimCompute.ReflexPolicy}
    (h : p.decideFresh now tel fuel = some (d, p')) :
    p' = { p with lastDecision := some d, lastDecisionTime := some now } ∧
    d.nWorkers = SimCompute.decodeNWorkers ((p.reflex.inferN
      (p.normalizer.normalize tel.toFeatures) fuel).getD [] |>.getD 0 F32.nan) := by
  unfold SimCompute.ReflexPolicy.decideFresh at h
  rcases hinf : p.reflex.inferN (p.normalizer.normalize tel.toFeatures) fuel with _ | outputs
  · simp [hinf] at h
  · simp only [hinf] at h
    rcases h0 : outputs[0]? with _ | o0
    · simp [h0] at h
    · simp only [h0, Option.some.injEq, Prod.mk.injEq] at h
      refine ⟨by rw [← h.1, ← h.2], ?_⟩
      rw [← h.1]
      simp only [Option.getD_some]
      have : outputs.getD 0 F32.nan = o0 := by
        rw [List.getD_eq_getElem?_getD, h0, Option.getD_some]
      rw [this]

theorem simCompute_decide_holdStep (fuel : Nat) :
    HoldStep (fun s now tel => SimCompute.ReflexPolicy.decide s now tel fuel)
      (fun s => s.holdTime = 500000) (fun s => s.lastDecision)
      (fun s => s.lastDecisionTime) 500000 := by
  intro s now i d s' hgood hstep
  simp only [SimCompute.ReflexPolicy.decide] at hstep
  rcases hlt : s.lastDecisionTime with _ | lastTime <;> simp only [hlt] at hstep
  · have hp' := (SimCompute.ReflexPolicy.decideFresh_spec_compute hstep).1
    subst hp'
    exact ⟨hgood, Or.inr ⟨rfl, rfl, fun lt h => by simp [hlt] at h⟩⟩
  · split at hstep
    · rcases hcd : s.lastDecision with _ | d0 <;> simp only [hcd] at hstep
      · simp at hstep
      · simp only [Option.some.injEq, Prod.mk.injEq] at hstep
        obtain ⟨rfl, rfl⟩ := hstep
        exact ⟨hgood, Or.inl ⟨rfl, hcd, by simp [hlt]⟩⟩
    · rename_i hcond
      have hp' := (SimCompute.ReflexPolicy.decideFresh_spec_compute hstep).1
      subst hp'
      refine ⟨hgood, Or.inr ⟨rfl, rfl, fun lt h => ?_⟩⟩
      simp only [hlt, Option.some.injEq] at h
      subst h
      rw [hgood] at hcond
      omega

/-- Transport telemetry fixture. -/
def witSample : TelemetrySample :=
  ⟨0, 5, F32.fin 0, F32.fin 0, F32.fin 100, F32.fin 200, F32.fin 0, F32.fin 0,
   F32.fin 1024, F32.fin 0, F32.fin 50⟩

/-- Compute telemetry fixture. -/
def witCompTelem : ComputeTelemetry :=
  ⟨0, 3, F32.fin 100, F32.fin 95, F32.fin 500, F32.fin 1200, F32.fin (1/2),
   F32.fin 80, F32.fin 450, F32.fin 2500, 1⟩

/-- A 10-feature transport reflex with two constant trees. -/
def witTransportReflex : Reflex :=
  ⟨specHeader 10 2, [[TreeNode.leaf (F32.fin 16)], [TreeNode.leaf (F32.fin 500)]],
   ⟨[F32.fin 0, F32.fin 0], [F32.fin 100, F32.fin 1000]⟩, specMeta⟩

/-- A 10-feature compute reflex with one constant tree. -/
def witComputeReflex : Reflex :=
  ⟨specHeader 10 1, [[TreeNode.leaf (F32.fin 8)]],
   ⟨[F32.fin 1], [F32.fin 64]⟩, specMeta⟩

/-- C7: in both reflex policies, when a cached decision exists and
`now - last_decision_time < hold_time` the cached decision is returned
with the state unchanged — for every reflex, normalizer and telemetry
sample, so neither is consulted — and in any monotone-time run from the
freshly loaded policy (hold 300000 µs transport / 500000 µs compute),
consecutive changes of the emitted decision are at least one hold time
apart. -/
theorem claim_C7_hold_time :
    (∀ (r : Reflex) (nz : Normalizer) (hyst : F32) (d : FlushDecision)
       (lastT now hold : Nat) (tel : TelemetrySample) (fuel : Nat),
      now - lastT < hold →
      Sim.ReflexPolicy.decide ⟨r, nz, hyst, some d, some lastT, hold⟩ now tel fuel =
        some (d, ⟨r, nz, hyst, some d, some lastT, hold⟩))
    ∧ (∀ (r : Reflex) (nz : Normalizer) (d : PoolSizeDecision)
       (lastT now hold : Nat) (tel : ComputeTelemetry) (fuel : Nat),
      now - lastT < hold →
      SimCompute.ReflexPolicy.decide ⟨r, nz, some d, some lastT, hold⟩ now tel fuel =
        some (d, ⟨r, nz, some d, some lastT, hold⟩))
    ∧ (∀ (r : Reflex) (nz : Normalizer) (fuel : Nat)
       (inputs : List (Nat × TelemetrySample)) (outs : List (Nat × FlushDecision)),
      runHold (fun s now tel => Sim.ReflexPolicy.decide s now tel fuel)
        (Sim.ReflexPolicy.init r nz) inputs = some outs →
      List.Pairwise (· ≤ ·) (inputs.map Prod.fst) →
      List.Chain' (fun a b => a + 300000 ≤ b) (changeTimes outs))
    ∧ (∀ (r : Reflex) (nz : Normalizer) (fuel : Nat)
       (inputs : List (Nat × ComputeTelemetry)) (outs : List (Nat × PoolSizeDecision)),
      runHold (fun s now tel => SimCompute.ReflexPolicy.decide s now tel fuel)
        (SimCompute.ReflexPolicy.init r nz) inputs = some outs →
      List.Pairwise (· ≤ ·) (inputs.map Prod.fst) →
      List.Chain' (fun a b => a + 500000 ≤ b) (changeTimes outs)) := by
  refine ⟨?_, ?_, ?_, ?_⟩
  · intro r nz hyst d lastT now hold tel fuel h
    simp [Sim.ReflexPolicy.decide, h]
  · intro r nz d lastT now hold tel fuel h
    simp [SimCompute.ReflexPolicy.decide, h]
  · intro r nz fuel inputs outs hrun hsorted
    exact runHold_changeTimes_spaced _ (fun s => s.holdTime = 300000)
      (fun s => s.lastDecision) (fun s => s.lastDecisionTime) 300000
      (sim_decide_holdStep fuel) _ _ _ hrun rfl rfl hsorted
  · intro r nz fuel inputs outs hrun hsorted
    exact runHold_changeTimes_spaced _ (fun s => s.holdTime = 500000)
      (fun s => s.lastDecision) (fun s => s.lastDecisionTime) 500000
      (simCompute_decide_holdStep fuel) _ _ _ hrun rfl rfl hsorted

set_option maxRecDepth 4000 in
theorem claim_C7_witness :
    (Sim.ReflexPolicy.decide
        ⟨witTransportReflex, witNormalizer, F32.fin (1/20), some ⟨16, 500⟩, some 0, 300000⟩
        100 witSample 10 =
      some (⟨16, 500⟩,
        ⟨witTransportReflex, witNormalizer, F32.fin (1/20), some ⟨16, 500⟩, some 0, 300000⟩))
    ∧ (SimCompute.ReflexPolicy.decide
        ⟨witComputeReflex, witNormalizer, some ⟨8⟩, some 0, 500000⟩ 100 witCompTelem 10 =
      some (⟨8⟩, ⟨witComputeReflex, witNormalizer, some ⟨8⟩, some 0, 500000⟩))
    ∧ List.Chain' (fun a b => a + 300000 ≤ b)
        (changeTimes [(0, (⟨16, 500⟩ : FlushDecision)), (100, ⟨16, 500⟩)])
    ∧ List.Chain' (fun a b => a + 500000 ≤ b)
        (changeTimes [(0, (⟨8⟩ : PoolSizeDecision)), (100, ⟨8⟩)]) :=
  ⟨claim_C7_hold_time.1 witTransportReflex witNormalizer (F32.fin (1/20)) ⟨16, 500⟩
      0 100 300000 witSample 10 (by decide),
   claim_C7_hold_time.2.1 witComputeReflex witNormalizer ⟨8⟩ 0 100 500000
      witCompTelem 10 (by decide),
   claim_C7_hold_time.2.2.1 witTransportReflex witNormalizer 10
      [(0, witSample), (100, witSample)] [(0, ⟨16, 500⟩), (100, ⟨16, 500⟩)]
      (by with_unfolding_all decide) (by decide),
   claim_C7_hold_time.2.2.2 witComputeReflex witNormalizer 10
      [(0, witCompTelem), (100, witCompTelem)] [(0, ⟨8⟩), (100, ⟨8⟩)]
      (by with_unfolding_all decide) (by decide)⟩

theorem decodeNWorkers_range (o : F32) :
    1 ≤ SimCompute.decodeNWorkers o ∧ SimCompute.decodeNWorkers o ≤ 64 := by
  cases o with
  | nan => refine ⟨?_, ?_⟩ <;> with_unfolding_all decide
  | inf => refine ⟨?_, ?_⟩ <;> with_unfolding_all decide
  | neginf => refine ⟨?_, ?_⟩ <;> with_unfolding_all decide
  | fin q =>
    obtain ⟨z, hzeq⟩ : ∃ z : ℤ, F32.round (F32.fin q) = F32.fin (z : ℚ) :=
      ⟨if 0 ≤ q then ⌊q + 1/2⌋ else -⌊-q + 1/2⌋,
        by by_cases hc : 0 ≤ q <;> simp [F32.round, hc]⟩
    unfold SimCompute.decodeNWorkers
    rw [hzeq]
    have hmax : F32.max (F32.fin (z : ℚ)) (F32.fin 1) =
        (if (z : ℚ) < 1 then F32.fin 1 else F32.fin (z : ℚ)) := by
      show (if F32.lt (F32.fin (z : ℚ)) (F32.fin 1) then F32.fin 1 else F32.fin (z : ℚ)) = _
      by_cases h : (z : ℚ) < 1
      · rw [if_pos (by simpa [F32.lt] using h), if_pos h]
      · rw [if_neg (by simpa [F32.lt] using h), if_neg h]
    rw [hmax]
    by_cases h1 : (z : ℚ) < 1
    · rw [if_pos h1]
      refine ⟨?_, ?_⟩ <;> with_unfolding_all decide
    · rw [if_neg h1]
      push_neg at h1
      have hmin : F32.min (F32.fin (z : ℚ)) (F32.fin 64) =
          (if (64 : ℚ) < (z : ℚ) then F32.fin 64 else F32.fin (z : ℚ)) := by
        show (if F32.lt (F32.fin 64) (F32.fin (z : ℚ)) then F32.fin 64 else F32.fin (z : ℚ)) = _
        by_cases h : (64 : ℚ) < (z : ℚ)
        · rw [if_pos (by simpa [F32.lt] using h), if_pos h]
        · rw [if_neg (by simpa [F32.lt] using h), if_neg h]
      rw [hmin]
      by_cases h64 : (64 : ℚ) < (z : ℚ)
      · rw [if_pos h64]
        refine ⟨?_, ?_⟩ <;> with_unfolding_all decide
      · rw [if_neg h64]
        push_neg at h64
        have hz1 : (1 : ℤ) ≤ z := by exact_mod_cast h1
        have hz64 : z ≤ (64 : ℤ) := by exact_mod_cast h64
        have hnotneg : ¬ ((z : ℚ) < 0) := by
          push_neg
          exact_mod_cast le_trans (by norm_num) hz1
        have htou : F32.toU32 (F32.fin (z : ℚ)) = Min.min ⌊(z : ℚ)⌋.toNat 4294967295 := by
          show (if (z : ℚ) < 0 then 0 else Min.min ⌊(z : ℚ)⌋.toNat 4294967295) = _
          rw [if_neg hnotneg]
        rw [htou, Int.floor_intCast]
        constructor
        · apply le_min <;> omega
        · exact le_trans (min_le_left _ _) (by omega)

/-- C8: every decision returned by the compute reflex policy (from a state
whose cache, if any, already satisfies the bound) has
`1 <= n_workers <= 64`: output 0 is rounded and then clamped to `[1, 64]`
via `max(1.0).min(64.0)` before the `u32` cast, for every output value
including NaN, infinities and out-of-range values. -/
theorem claim_C8_nworkers_clamped :
    (∀ o0 : F32, 1 ≤ SimCompute.decodeNWorkers o0 ∧ SimCompute.decodeNWorkers o0 ≤ 64)
    ∧ (∀ (p : SimCompute.ReflexPolicy) (now : Nat) (tel : ComputeTelemetry)
        (fuel : Nat) (d : PoolSizeDecision) (p' : SimCompute.ReflexPolicy),
        (∀ c, p.lastDecision = some c → 1 ≤ c.nWorkers ∧ c.nWorkers ≤ 64) →
        SimCompute.ReflexPolicy.decide p now tel fuel = some (d, p') →
        (1 ≤ d.nWorkers ∧ d.nWorkers ≤ 64) ∧
        (∀ c, p'.lastDecision = some c → 1 ≤ c.nWorkers ∧ c.nWorkers ≤ 64)) := by
  refine ⟨decodeNWorkers_range, ?_⟩
  intro p now tel fuel d p' hinv hstep
  simp only [SimCompute.ReflexPolicy.decide] at hstep
  have fresh_case : ∀ (h : p.decideFresh now tel fuel = some (d, p')),
      (1 ≤ d.nWorkers ∧ d.nWorkers ≤ 64) ∧
      (∀ c, p'.lastDecision = some c → 1 ≤ c.nWorkers ∧ c.nWorkers ≤ 64) := by
    intro h
    obtain ⟨hp', hd⟩ := SimCompute.ReflexPolicy.decideFresh_spec_compute h
    have hrange := decodeNWorkers_range ((p.reflex.inferN
      (p.normalizer.normalize tel.toFeatures) fuel).getD [] |>.getD 0 F32.nan)
    rw [← hd] at hrange
    refine ⟨hrange, ?_⟩
    intro c hc
    rw [hp'] at hc
    simp only [Option.some.injEq] at hc
    exact hc ▸ hrange
  rcases hlt : p.lastDecisionTime with _ | lastTime <;> simp only [hlt] at hstep
  · exact fresh_case hstep
  · split at hstep
    · rcases hcd : p.lastDecision with _ | d0 <;> simp only [hcd] at hstep
      · simp at hstep
      · simp only [Option.some.injEq, Prod.mk.injEq] at hstep
        obtain ⟨rfl, rfl⟩ := hstep
        exact ⟨hinv _ hcd, hinv⟩
    · exact fresh_case hstep

set_option maxRecDepth 4000 in
theorem claim_C8_witness :
    (1 ≤ SimCompute.decodeNWorkers F32.nan ∧ SimCompute.decodeNWorkers F32.nan ≤ 64)
    ∧ ((1 ≤ (8 : Nat) ∧ (8 : Nat) ≤ 64)
        ∧ (∀ c, (some (⟨8⟩ : PoolSizeDecision) = some c) →
            1 ≤ c.nWorkers ∧ c.nWorkers ≤ 64)) :=
  ⟨claim_C8_nworkers_clamped.1 F32.nan,
   by
    have h := claim_C8_nworkers_clamped.2
      (SimCompute.ReflexPolicy.init witComputeReflex witNormalizer) 0 witCompTelem 10
      ⟨8⟩ ⟨witComputeReflex, witNormalizer, some ⟨8⟩, some 0, 500000⟩
      (by intro c hc; simp [SimCompute.ReflexPolicy.init] at hc)
      (by with_unfolding_all rfl)
    exact ⟨h.1, h.2⟩⟩

/-- C10: the transport policy's output decoding applies no actionable-range
clamping — `threshold` and `max_delay_us` are exactly the rounded outputs
cast `as u32` (saturating) — so whenever output 0 rounds to a value that is
not greater than zero (negative values, negative infinity and NaN
included), the decoded threshold is 0, and with `threshold = 0` the
transport's flush condition holds on every tick regardless of queue state. -/
theorem claim_C10_threshold_zero_flushes :
    (∀ o0 o1 : F32, Sim.decodeFlush o0 o1 =
      ⟨F32.toU32 (F32.round o0), F32.toU32 (F32.round o1)⟩)
    ∧ (∀ o : F32, F32.gt (F32.round o) (F32.fin 0) = false →
        F32.toU32 (F32.round o) = 0)
    ∧ (∀ queueLen oldestAgeUs maxDelay : Nat,
        Sim.shouldFlush queueLen oldestAgeUs ⟨0, maxDelay⟩ = true) := by
  refine ⟨fun _ _ => rfl, ?_, ?_⟩
  · intro o hgt
    rcases hr : F32.round o with _ | _ | _ | q
    · rfl
    · rw [hr] at hgt
      exact absurd hgt (by with_unfolding_all decide)
    · rfl
    · rw [hr] at hgt
      have hq : ¬ ((0 : ℚ) < q) := by
        intro hlt
        rw [show F32.gt (F32.fin q) (F32.fin 0) = decide ((0 : ℚ) < q) from rfl] at hgt
        simp [hlt] at hgt
      show (if q < 0 then 0 else Min.min ⌊q⌋.toNat 4294967295) = 0
      by_cases hneg : q < 0
      · rw [if_pos hneg]
      · rw [if_neg hneg]
        have : q = 0 := le_antisymm (not_lt.mp hq) (not_lt.mp hneg)
        subst this
        with_unfolding_all decide
  · intro queueLen oldestAgeUs maxDelay
    simp [Sim.shouldFlush]

theorem claim_C10_witness :
    F32.toU32 (F32.round (F32.fin (-5))) = 0
    ∧ F32.toU32 (F32.round F32.nan) = 0
    ∧ Sim.shouldFlush 3 0 ⟨0, 500⟩ = true :=
  ⟨claim_C10_threshold_zero_flushes.2.1 (F32.fin (-5)) (by with_unfolding_all decide),
   claim_C10_threshold_zero_flushes.2.1 F32.nan (by with_unfolding_all decide),
   claim_C10_threshold_zero_flushes.2.2 3 0 500⟩

namespace SimCompute

/-- `Task` (src/sim-compute/src/lib.rs:12). -/
structure Task where
  id : Nat
  workUs : Nat
  arrivalTime : Nat
  startTime : Option Nat
  deriving DecidableEq

/-- `Worker` (src/sim-compute/src/lib.rs:176). -/
structure Worker where
  id : Nat
  currentTask : Option Task
  taskFinishTime : Option Nat
  deriving DecidableEq

/-- `Worker::new` (lib.rs:183). -/
def Worker.new (id : Nat) : Worker := ⟨id, none, none⟩

/-- `Worker::is_idle` (lib.rs:191). -/
def Worker.isIdle (w : Worker) : Bool := w.currentTask.isNone

/-- The `retain` loop of `ThreadPoolSim::resize_workers` (lib.rs:334-341):
walk the worker list in order, dropping idle workers while the removal
budget lasts. -/
def retainIdleRemoval : Nat → List Worker → List Worker
  | _, [] => []
  | toRemove, w :: ws =>
    if 0 < toRemove ∧ w.isIdle = true then retainIdleRemoval (toRemove - 1) ws
    else w :: retainIdleRemoval toRemove ws

/-- `ThreadPoolSim::resize_workers` (lib.rs:322-343). -/
def resizeWorkers (workers : List Worker) (target : Nat) : List Worker :=
  if target > workers.length then
    workers ++ (List.range' workers.length (target - workers.length)).map Worker.new
  else if target < workers.length then
    retainIdleRemoval (workers.length - target) workers
  else workers

theorem retainIdleRemoval_mem_of_busy :
    ∀ (k : Nat) (ws : List Worker) (w : Worker),
    w ∈ ws → w.isIdle = false → w ∈ retainIdleRemoval k ws := by
  intro k ws
  induction ws generalizing k with
  | nil => intro w h; simp at h
  | cons w0 rest ih =>
    intro w hmem hbusy
    rcases List.mem_cons.mp hmem with rfl | hmem'
    · unfold retainIdleRemoval
      rw [if_neg (by simp [hbusy])]
      exact List.mem_cons_self _ _
    · unfold retainIdleRemoval
      split
      · exact ih _ w hmem' hbusy
      · exact List.mem_cons_of_mem _ (ih _ w hmem' hbusy)

theorem retainIdleRemoval_sublist :
    ∀ (k : Nat) (ws : List Worker), (retainIdleRemoval k ws).Sublist ws := by
  intro k ws
  induction ws generalizing k with
  | nil => simp [retainIdleRemoval]
  | cons w0 rest ih =>
    unfold retainIdleRemoval
    split
    · exact (ih _).cons _
    · exact (ih _).cons₂ _

theorem retainIdleRemoval_length :
    ∀ (k : Nat) (ws : List Worker),
    (retainIdleRemoval k ws).length =
      ws.length - Min.min k (ws.countP (fun w => w.isIdle)) := by
  intro k ws
  induction ws generalizing k with
  | nil => simp [retainIdleRemoval]
  | cons w0 rest ih =>
    have hc : rest.countP (fun w => w.isIdle) ≤ rest.length := List.countP_le_length _
    unfold retainIdleRemoval
    split
    · rename_i hcond
      rw [ih (k - 1)]
      rw [List.countP_cons_of_pos _ _ (by exact hcond.2)]
      simp only [List.length_cons]
      omega
    · rename_i hcond
      simp only [List.length_cons, ih k]
      by_cases hidle : w0.isIdle = true
      · have hk : k = 0 := by
          by_contra hk0
          exact hcond ⟨by omega, hidle⟩
        subst hk
        simp
      · rw [List.countP_cons_of_neg _ _ (by simpa using hidle)]
        omega

end SimCompute

/-- C9: `resize_workers` never removes a busy worker — each worker holding
a task before the resize remains in the pool; growing appends fresh idle
workers to reach exactly the target; shrinking removes only idle workers
(the result is a sublist, of size `current - min(current - target,
idle-count)`, which is never below the target and may exceed it when there
are not enough idle workers). -/
theorem claim_C9_resize_workers :
    (∀ (ws : List SimCompute.Worker) (target : Nat) (w : SimCompute.Worker),
      w ∈ ws → w.isIdle = false → w ∈ SimCompute.resizeWorkers ws target)
    ∧ (∀ (ws : List SimCompute.Worker) (target : Nat), ws.length < target →
        SimCompute.resizeWorkers ws target =
          ws ++ (List.range' ws.length (target - ws.length)).map SimCompute.Worker.new
        ∧ (SimCompute.resizeWorkers ws target).length = target
        ∧ (∀ w ∈ (List.range' ws.length (target - ws.length)).map SimCompute.Worker.new,
            w.isIdle = true))
    ∧ (∀ (ws : List SimCompute.Worker) (target : Nat), target < ws.length →
        (SimCompute.resizeWorkers ws target).Sublist ws
        ∧ (SimCompute.resizeWorkers ws target).length =
            ws.length - Min.min (ws.length - target) (ws.countP (fun w => w.isIdle))
        ∧ target ≤ (SimCompute.resizeWorkers ws target).length) := by
  refine ⟨?_, ?_, ?_⟩
  · intro ws target w hmem hbusy
    unfold SimCompute.resizeWorkers
    split
    · exact List.mem_append_left _ hmem
    · split
      · exact SimCompute.retainIdleRemoval_mem_of_busy _ ws w hmem hbusy
      · exact hmem
  · intro ws target hlt
    have hgt : target > ws.length := hlt
    unfold SimCompute.resizeWorkers
    rw [if_pos hgt]
    refine ⟨rfl, ?_, ?_⟩
    · simp only [List.length_append, List.length_map, List.length_range']
      omega
    · intro w hw
      simp only [List.mem_map] at hw
      obtain ⟨i, _, rfl⟩ := hw
      rfl
  · intro ws target hlt
    unfold SimCompute.resizeWorkers
    rw [if_neg (by omega), if_pos hlt]
    have hc : ws.countP (fun w => w.isIdle) ≤ ws.length := List.countP_le_length _
    refine ⟨SimCompute.retainIdleRemoval_sublist _ _, SimCompute.retainIdleRemoval_length _ _, ?_⟩
    rw [SimCompute.retainIdleRemoval_length]
    omega

theorem claim_C9_witness :
    (⟨0, some ⟨0, 100, 0, some 0⟩, some 100⟩ : SimCompute.Worker) ∈
      SimCompute.resizeWorkers
        [⟨0, some ⟨0, 100, 0, some 0⟩, some 100⟩, ⟨1, none, none⟩] 1
    ∧ (SimCompute.resizeWorkers [SimCompute.Worker.new 0] 3).length = 3
    ∧ (SimCompute.resizeWorkers
        [⟨0, some ⟨0, 100, 0, some 0⟩, some 100⟩, ⟨1, none, none⟩] 1).Sublist
        [⟨0, some ⟨0, 100, 0, some 0⟩, some 100⟩, ⟨1, none, none⟩] :=
  ⟨claim_C9_resize_workers.1
      [⟨0, some ⟨0, 100, 0, some 0⟩, some 100⟩, ⟨1, none, none⟩] 1
      ⟨0, some ⟨0, 100, 0, some 0⟩, some 100⟩ (by decide) (by decide),
   (claim_C9_resize_workers.2.1 [SimCompute.Worker.new 0] 3 (by decide)).2.1,
   (claim_C9_resize_workers.2.2
      [⟨0, some ⟨0, 100, 0, some 0⟩, some 100⟩, ⟨1, none, none⟩] 1 (by decide)).1⟩

/-!
## Byte-level primitives for the `.reflex` container

Buffers are lists of `Nat` byte values; multi-byte integer fields are
little-endian (reads reduce each byte modulo 256, the identity on actual
bytes).
-/

/-- Little-endian encoding of `n` into `k` bytes (truncating at `256^k`,
as the Rust `as u32`-style casts do). -/
def encodeLE : Nat → Nat → List Nat
  | 0, _ => []
  | k + 1, n => n % 256 :: encodeLE k (n / 256)

/-- Little-endian value of a byte list (`uXX::from_le_bytes`). -/
def leVal : List Nat → Nat
  | [] => 0
  | b :: bs => b % 256 + 256 * leVal bs

theorem encodeLE_length (k n : Nat) : (encodeLE k n).length = k := by
  induction k generalizing n with
  | zero => rfl
  | succ k ih => simp [encodeLE, ih]

theorem leVal_encodeLE (k n : Nat) : leVal (encodeLE k n) = n % 256 ^ k := by
  induction k generalizing n with
  | zero => simp [encodeLE, leVal, Nat.mod_one]
  | succ k ih =>
    simp only [encodeLE, leVal, ih]
    rw [pow_succ, mul_comm (256 ^ k) 256, Nat.mod_mul, Nat.mod_mod_of_dvd _ (dvd_refl 256)]

theorem leVal_lt (bs : List Nat) : leVal bs < 256 ^ bs.length := by
  induction bs with
  | nil => simp [leVal]
  | cons b rest ih =>
    simp only [leVal, List.length_cons, pow_succ]
    have h1 : b % 256 < 256 := Nat.mod_lt _ (by norm_num)
    calc b % 256 + 256 * leVal rest < 256 + 256 * leVal rest := by omega
    _ ≤ 256 * (leVal rest + 1) := by ring_nf; omega
    _ ≤ 256 * 256 ^ rest.length := by
        have := ih
        exact Nat.mul_le_mul_left _ (by omega)
    _ = 256 ^ rest.length * 256 := by ring

/-- One bit round of CRC-32 (IEEE polynomial `0xEDB88320`). -/
def crc32Round (crc : Nat) : Nat :=
  if crc % 2 = 1 then (crc / 2) ^^^ 0xEDB88320 else crc / 2

/-- Iterated bit rounds. -/
def crc32Rounds : Nat → Nat → Nat
  | 0, crc => crc
  | k + 1, crc => crc32Rounds k (crc32Round crc)

/-- Fold one byte into the running CRC. -/
def crc32Byte (crc b : Nat) : Nat := crc32Rounds 8 (crc ^^^ (b % 256))

/-- `crc32fast::hash`: CRC-32 (IEEE, reflected) of a byte buffer. -/
def crc32 (bytes : List Nat) : Nat :=
  (bytes.foldl crc32Byte 0xFFFFFFFF) ^^^ 0xFFFFFFFF

theorem crc32Round_lt {crc : Nat} (h : crc < 2 ^ 32) : crc32Round crc < 2 ^ 32 := by
  unfold crc32Round
  split
  · exact Nat.xor_lt_two_pow (by omega) (by norm_num)
  · omega

theorem crc32Rounds_lt (k : Nat) {crc : Nat} (h : crc < 2 ^ 32) :
    crc32Rounds k crc < 2 ^ 32 := by
  induction k generalizing crc with
  | zero => exact h
  | succ k ih => exact ih (crc32Round_lt h)

theorem crc32_lt (bytes : List Nat) : crc32 bytes < 2 ^ 32 := by
  have hfold : ∀ (l : List Nat) (acc : Nat), acc < 2 ^ 32 →
      l.foldl crc32Byte acc < 2 ^ 32 := by
    intro l
    induction l with
    | nil => intro acc h; exact h
    | cons b rest ih =>
      intro acc h
      refine ih _ (crc32Rounds_lt 8 (Nat.xor_lt_two_pow h ?_))
      exact lt_of_lt_of_le (Nat.mod_lt _ (by norm_num)) (by norm_num)
  exact Nat.xor_lt_two_pow (hfold bytes _ (by norm_num)) (by norm_num)

/-!
## Decimal digits
-/

/-- Decimal digits of `n`, as ASCII codes. -/
def natDigits (n : Nat) : List Nat :=
  if h : n < 10 then [48 + n]
  else natDigits (n / 10) ++ [48 + n % 10]
termination_by n
decreasing_by exact Nat.div_lt_self (by omega) (by omega)

/-- Greedy digit accumulator: consume leading ASCII digits. -/
def parseNatAux : Nat → List Nat → Nat × List Nat
  | acc, [] => (acc, [])
  | acc, c :: rest =>
    if 48 ≤ c ∧ c ≤ 57 then parseNatAux (acc * 10 + (c - 48)) rest
    else (acc, c :: rest)

/-- Parse a nonempty run of ASCII digits. -/
def parseNat (input : List Nat) : Option (Nat × List Nat) :=
  match input with
  | c :: rest =>
    if 48 ≤ c ∧ c ≤ 57 then some (parseNatAux 0 (c :: rest)) else none
  | [] => none

theorem natDigits_all_digits (n : Nat) : ∀ c ∈ natDigits n, 48 ≤ c ∧ c ≤ 57 := by
  induction n using Nat.strong_induction_on with
  | _ n ih =>
    unfold natDigits
    split
    · intro c hc
      simp only [List.mem_singleton] at hc
      omega
    · intro c hc
      rw [List.mem_append] at hc
      rcases hc with hc | hc
      · exact ih (n / 10) (Nat.div_lt_self (by omega) (by omega)) c hc
      · simp only [List.mem_singleton] at hc
        have := Nat.mod_lt n (show 0 < 10 by omega)
        omega

theorem natDigits_ne_nil (n : Nat) : natDigits n ≠ [] := by
  unfold natDigits
  split
  · simp
  · simp

theorem parseNatAux_stop {acc : Nat} {rest : List Nat}
    (h : ∀ c, rest.head? = some c → ¬(48 ≤ c ∧ c ≤ 57)) :
    parseNatAux acc rest = (acc, rest) := by
  cases rest with
  | nil => rfl
  | cons c cs =>
    unfold parseNatAux
    rw [if_neg (h c rfl)]

theorem natDigits_lt {n : Nat} (h : n < 10) : natDigits n = [48 + n] := by
  conv_lhs => rw [natDigits]
  rw [dif_pos h]

theorem natDigits_ge {n : Nat} (h : ¬ n < 10) :
    natDigits n = natDigits (n / 10) ++ [48 + n % 10] := by
  conv_lhs => rw [natDigits]
  rw [dif_neg h]

theorem parseNatAux_cons (acc c : Nat) (rest : List Nat) :
    parseNatAux acc (c :: rest) =
      if 48 ≤ c ∧ c ≤ 57 then parseNatAux (acc * 10 + (c - 48)) rest
      else (acc, c :: rest) := rfl

theorem parseNatAux_append (n : Nat) : ∀ (acc : Nat) (rest : List Nat),
    parseNatAux acc (natDigits n ++ rest) =
      parseNatAux (acc * 10 ^ (natDigits n).length + n) rest := by
  induction n using Nat.strong_induction_on with
  | _ n ih =>
    intro acc rest
    by_cases h : n < 10
    · rw [natDigits_lt h]
      simp only [List.singleton_append, List.length_singleton, pow_one]
      rw [parseNatAux_cons, if_pos (by omega)]
      congr 1
      omega
    · rw [natDigits_ge h, List.append_assoc,
        ih (n / 10) (Nat.div_lt_self (by omega) (by omega))]
      simp only [List.singleton_append]
      have hd : 48 ≤ 48 + n % 10 ∧ 48 + n % 10 ≤ 57 := by
        have := Nat.mod_lt n (show 0 < 10 by omega)
        omega
      rw [parseNatAux_cons, if_pos hd]
      congr 1
      have hmod : 48 + n % 10 - 48 = n % 10 := by omega
      rw [hmod]
      simp only [List.length_append, List.length_singleton]
      have hsum : (acc * 10 ^ (natDigits (n / 10)).length + n / 10) * 10 + n % 10 =
          acc * 10 ^ ((natDigits (n / 10)).length + 1) + (10 * (n / 10) + n % 10) := by
        ring
      rw [hsum, Nat.div_add_mod]

theorem parseNat_digits (n : Nat) (rest : List Nat)
    (hrest : ∀ c, rest.head? = some c → ¬(48 ≤ c ∧ c ≤ 57)) :
    parseNat (natDigits n ++ rest) = some (n, rest) := by
  obtain ⟨c, cs, hcons⟩ : ∃ c cs, natDigits n = c :: cs := by
    cases hh : natDigits n with
    | nil => exact absurd hh (natDigits_ne_nil n)
    | cons c cs => exact ⟨c, cs, rfl⟩
  have hcd : 48 ≤ c ∧ c ≤ 57 :=
    natDigits_all_digits n c (by rw [hcons]; exact List.mem_cons_self _ _)
  have h1 : parseNat (natDigits n ++ rest) = some (parseNatAux 0 (natDigits n ++ rest)) := by
    rw [hcons]
    simp only [List.cons_append, parseNat, if_pos hcd]
  rw [h1, parseNatAux_append, parseNatAux_stop hrest]
  simp

/-!
## JSON numbers

`serde_json` writes integers as plain decimal and floats in a decimal
form; parsing accepts `-? digits (.digits)? ([eE][+-]?digits)?`.  The
renderer here emits integers as digits and non-integral rationals as
`<mantissa>e-<exp>`; any decimal form that parses back to the same
rational is a faithful value-level model of serde's shortest-float
output. -/

/-- Number of `p` factors in `n`. -/
def countFactors (p : Nat) : Nat → Nat
  | n =>
    if 2 ≤ p ∧ 0 < n ∧ n % p = 0 then countFactors p (n / p) + 1 else 0
termination_by n => n
decreasing_by
  rename_i h
  exact Nat.div_lt_self h.2.1 h.1

/-- True when `n` factors as `2^a * 5^b` — the denominators expressible
in finite decimal, which include every actual `f32` denominator. -/
def isDecimalDen (n : Nat) : Bool :=
  n == 2 ^ countFactors 2 n * 5 ^ countFactors 5 n

/-- Render an integer in decimal. -/
def renderInt (i : ℤ) : List Nat :=
  if i < 0 then 45 :: natDigits i.natAbs else natDigits i.natAbs

/-- Render a rational: integers as plain decimal, other values as
`<mantissa>e-<exp>` with a power-of-ten denominator. -/
def renderQ (q : ℚ) : List Nat :=
  if q.den = 1 then renderInt q.num
  else
    renderInt (q.num * ((10 ^ Max.max (countFactors 2 q.den) (countFactors 5 q.den) : Nat)
      / q.den : Nat)) ++
      101 :: 45 :: natDigits (Max.max (countFactors 2 q.den) (countFactors 5 q.den))

/-- Parse the optional fraction part: `.digits` or nothing; reports the
fraction value and its digit count. -/
def parseFracPart : List Nat → Option (Nat × Nat × List Nat)
  | 46 :: rest2 =>
    match parseNat rest2 with
    | some (f, r2) => some (f, rest2.length - r2.length, r2)
    | none => none
  | r1 => some (0, 0, r1)

/-- Parse the signed exponent digits after `e`/`E` and apply them. -/
def parseExpSign (base : ℚ) : List Nat → Option (ℚ × List Nat)
  | 45 :: rest => (parseNat rest).map (fun p => (base / 10 ^ p.1, p.2))
  | 43 :: rest => (parseNat rest).map (fun p => (base * 10 ^ p.1, p.2))
  | input => (parseNat input).map (fun p => (base * 10 ^ p.1, p.2))

/-- Parse the optional exponent part. -/
def parseExpPart (base : ℚ) : List Nat → Option (ℚ × List Nat)
  | 101 :: rest => parseExpSign base rest
  | 69 :: rest => parseExpSign base rest
  | r => some (base, r)

/-- Parse an unsigned JSON number. -/
def parseUnsignedNumber (input : List Nat) : Option (ℚ × List Nat) :=
  match parseNat input with
  | none => none
  | some (ipart, r1) =>
    match parseFracPart r1 with
    | none => none
    | some (f, flen, r2) =>
      parseExpPart ((ipart : ℚ) + (f : ℚ) / 10 ^ flen) r2

/-- Parse a JSON number. -/
def parseNumber (input : List Nat) : Option (ℚ × List Nat) :=
  match input with
  | 45 :: rest => (parseUnsignedNumber rest).map (fun p => (-p.1, p.2))
  | _ => parseUnsignedNumber input

/-- The characters that may legally follow a rendered number in our
grammar positions: end of input or a char that is not a digit, `.`, `e`,
`E`. -/
def SafeAfterNumber (rest : List Nat) : Prop :=
  ∀ c, rest.head? = some c → ¬(48 ≤ c ∧ c ≤ 57) ∧ c ≠ 46 ∧ c ≠ 101 ∧ c ≠ 69

theorem parseFracPart_none {r : List Nat} (h : ∀ c, r.head? = some c → c ≠ 46) :
    parseFracPart r = some (0, 0, r) := by
  unfold parseFracPart
  split
  · exact absurd rfl (h 46 rfl)
  · rfl

theorem parseExpPart_none (base : ℚ) {r : List Nat}
    (h : ∀ c, r.head? = some c → c ≠ 101 ∧ c ≠ 69) :
    parseExpPart base r = some (base, r) := by
  unfold parseExpPart
  split
  · exact absurd rfl (h 101 rfl).1
  · exact absurd rfl (h 69 rfl).2
  · rfl

theorem parseNumber_not_neg {input : List Nat}
    (h : ∀ c, input.head? = some c → c ≠ 45) :
    parseNumber input = parseUnsignedNumber input := by
  unfold parseNumber
  split
  · exact absurd rfl (h 45 rfl)
  · rfl

theorem parseNumber_neg_cons (rest : List Nat) :
    parseNumber (45 :: rest) =
      (parseUnsignedNumber rest).map (fun p => (-p.1, p.2)) := rfl

theorem parseUnsignedNumber_digits (n : Nat) (rest : List Nat)
    (hrest : SafeAfterNumber rest) :
    parseUnsignedNumber (natDigits n ++ rest) = some ((n : ℚ), rest) := by
  have h1 := parseNat_digits n rest (fun c hc => (hrest c hc).1)
  have h2 := parseFracPart_none (fun c hc => (hrest c hc).2.1)
  have h3 : ∀ b : ℚ, parseExpPart b rest = some (b, rest) := fun b =>
    parseExpPart_none b (fun c hc => ⟨(hrest c hc).2.2.1, (hrest c hc).2.2.2⟩)
  simp only [parseUnsignedNumber, h1, h2, h3]
  norm_num

theorem parseNumber_renderInt (i : ℤ) (rest : List Nat)
    (hrest : SafeAfterNumber rest) :
    parseNumber (renderInt i ++ rest) = some ((i : ℚ), rest) := by
  unfold renderInt
  split
  · rename_i hneg
    simp only [List.cons_append, parseNumber_neg_cons]
    rw [parseUnsignedNumber_digits _ _ hrest]
    simp only [Option.map_some']
    congr 2
    rw [Int.cast_natAbs, abs_of_neg (by exact_mod_cast hneg)]
    push_cast
    ring
  · rename_i hpos
    rw [parseNumber_not_neg]
    · rw [parseUnsignedNumber_digits _ _ hrest]
      congr 2
      rw [Int.cast_natAbs, abs_of_nonneg (by exact_mod_cast (not_lt.mp hpos))]
    · intro c hc
      obtain ⟨d, ds, hd⟩ : ∃ d ds, natDigits i.natAbs = d :: ds := by
        cases hh : natDigits i.natAbs with
        | nil => exact absurd hh (natDigits_ne_nil _)
        | cons d ds => exact ⟨d, ds, rfl⟩
      rw [hd] at hc
      simp only [List.cons_append, List.head?_cons, Option.some.injEq] at hc
      have := natDigits_all_digits i.natAbs d (by rw [hd]; exact List.mem_cons_self _ _)
      omega

theorem parseUnsignedNumber_mantissa_exp (n e : Nat) (rest : List Nat)
    (hrest : SafeAfterNumber rest) :
    parseUnsignedNumber (natDigits n ++ 101 :: 45 :: (natDigits e ++ rest)) =
      some ((n : ℚ) / 10 ^ e, rest) := by
  have h1 := parseNat_digits n (101 :: 45 :: (natDigits e ++ rest))
    (by intro c hc; simp only [List.head?_cons, Option.some.injEq] at hc; omega)
  have h2 := parseFracPart_none
    (r := 101 :: 45 :: (natDigits e ++ rest))
    (by intro c hc; simp only [List.head?_cons, Option.some.injEq] at hc; omega)
  have h3 := parseNat_digits e rest (fun c hc => (hrest c hc).1)
  simp only [parseUnsignedNumber, h1, h2, parseExpPart, parseExpSign, h3]
  norm_num

theorem parseNumber_mantissa_exp (m : ℤ) (e : Nat) (rest : List Nat)
    (hrest : SafeAfterNumber rest) :
    parseNumber (renderInt m ++ 101 :: 45 :: (natDigits e ++ rest)) =
      some ((m : ℚ) / 10 ^ e, rest) := by
  unfold renderInt
  split
  · rename_i hneg
    simp only [List.cons_append, parseNumber_neg_cons]
    rw [parseUnsignedNumber_mantissa_exp _ _ _ hrest]
    simp only [Option.map_some']
    congr 2
    rw [Int.cast_natAbs, abs_of_neg (by exact_mod_cast hneg)]
    push_cast
    ring
  · rename_i hpos
    rw [parseNumber_not_neg]
    · rw [parseUnsignedNumber_mantissa_exp _ _ _ hrest]
      congr 2
      rw [Int.cast_natAbs, abs_of_nonneg (by exact_mod_cast (not_lt.mp hpos))]
    · intro c hc
      obtain ⟨d, ds, hd⟩ : ∃ d ds, natDigits m.natAbs = d :: ds := by
        cases hh : natDigits m.natAbs with
        | nil => exact absurd hh (natDigits_ne_nil _)
        | cons d ds => exact ⟨d, ds, rfl⟩
      rw [hd] at hc
      simp only [List.cons_append, List.head?_cons, Option.some.injEq] at hc
      have := natDigits_all_digits m.natAbs d (by rw [hd]; exact List.mem_cons_self _ _)
      omega

theorem isDecimalDen_dvd {n : Nat} (h : isDecimalDen n = true) :
    n ∣ 10 ^ Max.max (countFactors 2 n) (countFactors 5 n) := by
  have heq : n = 2 ^ countFactors 2 n * 5 ^ countFactors 5 n := by
    simpa [isDecimalDen] using h
  calc n = 2 ^ countFactors 2 n * 5 ^ countFactors 5 n := heq
  _ ∣ 2 ^ Max.max (countFactors 2 n) (countFactors 5 n) *
      5 ^ Max.max (countFactors 2 n) (countFactors 5 n) :=
    mul_dvd_mul (pow_dvd_pow 2 (le_max_left _ _)) (pow_dvd_pow 5 (le_max_right _ _))
  _ = 10 ^ Max.max (countFactors 2 n) (countFactors 5 n) := by
    rw [← Nat.mul_pow]

theorem parseNumber_renderQ (q : ℚ) (hdec : isDecimalDen q.den = true)
    (rest : List Nat) (hrest : SafeAfterNumber rest) :
    parseNumber (renderQ q ++ rest) = some (q, rest) := by
  unfold renderQ
  split
  · rename_i hden
    rw [parseNumber_renderInt _ _ hrest]
    congr 2
    conv_rhs => rw [← Rat.num_div_den q]
    rw [hden]
    norm_num
  · rename_i hden
    rw [List.append_assoc]
    simp only [List.cons_append]
    rw [parseNumber_mantissa_exp _ _ _ hrest]
    congr 2
    have hdvd := isDecimalDen_dvd hdec
    set E := Max.max (countFactors 2 q.den) (countFactors 5 q.den) with hE
    have hden0 : ((q.den : ℚ)) ≠ 0 := Nat.cast_ne_zero.mpr q.den_nz
    have hp0 : ((10 : ℚ)) ^ E ≠ 0 := by positivity
    have hcast : ((10 ^ E / q.den : ℕ) : ℚ) = (10 : ℚ) ^ E / (q.den : ℚ) := by
      rw [Nat.cast_div hdvd hden0]
      push_cast
      ring
    rw [Int.cast_mul, Int.cast_natCast, hcast]
    have hfin : (q.num : ℚ) * ((10 : ℚ) ^ E / (q.den : ℚ)) / (10 : ℚ) ^ E =
        (q.num : ℚ) / (q.den : ℚ) := by
      field_simp
      ring
    rw [hfin, Rat.num_div_den]

/-!
## JSON strings

Rust `String`s are sequences of Unicode scalar values, modelled as
`List Nat`.  The model escapes control characters and all non-ASCII
characters as `\uXXXX` (with surrogate pairs beyond the BMP) and emits
other ASCII characters raw — a byte-level variant of serde's output that
parses back to the same value, keeping every buffer pure ASCII so one
list entry is one byte. -/

/-- Lower-case hex digit. -/
def toHexDigit (n : Nat) : Nat := if n < 10 then 48 + n else 87 + n

/-- Hex digit value (accepts both cases). -/
def fromHexDigit (c : Nat) : Option Nat :=
  if 48 ≤ c ∧ c ≤ 57 then some (c - 48)
  else if 97 ≤ c ∧ c ≤ 102 then some (c - 87)
  else if 65 ≤ c ∧ c ≤ 70 then some (c - 55)
  else none

/-- Four-digit hex value. -/
def hexVal4 (a b c d : Nat) : Option Nat := do
  let x ← fromHexDigit a
  let y ← fromHexDigit b
  let z ← fromHexDigit c
  let w ← fromHexDigit d
  pure (4096 * x + 256 * y + 16 * z + w)

/-- Escape one scalar value. -/
def escapeChar (c : Nat) : List Nat :=
  if c = 34 then [92, 34]
  else if c = 92 then [92, 92]
  else if c < 32 ∨ 128 ≤ c then
    if c < 65536 then
      [92, 117, toHexDigit (c / 4096 % 16), toHexDigit (c / 256 % 16),
       toHexDigit (c / 16 % 16), toHexDigit (c % 16)]
    else
      [92, 117, toHexDigit ((55296 + (c - 65536) / 1024) / 4096 % 16),
       toHexDigit ((55296 + (c - 65536) / 1024) / 256 % 16),
       toHexDigit ((55296 + (c - 65536) / 1024) / 16 % 16),
       toHexDigit ((55296 + (c - 65536) / 1024) % 16),
       92, 117, toHexDigit ((56320 + (c - 65536) % 1024) / 4096 % 16),
       toHexDigit ((56320 + (c - 65536) % 1024) / 256 % 16),
       toHexDigit ((56320 + (c - 65536) % 1024) / 16 % 16),
       toHexDigit ((56320 + (c - 65536) % 1024) % 16)]
  else [c]

/-- Escape a whole string body. -/
def escapeString : List Nat → List Nat
  | [] => []
  | c :: cs => escapeChar c ++ escapeString cs

/-- Render a JSON string with its quotes. -/
def renderString (s : List Nat) : List Nat := 34 :: (escapeString s ++ [34])

/-- A valid Unicode scalar value (what a Rust `char` can hold). -/
def validScalar (c : Nat) : Bool := c < 1114112 && !(55296 ≤ c && c ≤ 57343)

/-- All characters are valid scalars. -/
def validString (s : List Nat) : Bool := s.all validScalar

/-- Parse a JSON string body up to the closing quote, decoding the escape
forms this model emits (`\"`, `\\`, `\uXXXX` with surrogate pairs). -/
def parseStringBody : List Nat → Option (List Nat × List Nat)
  | [] => none
  | 34 :: rest => some ([], rest)
  | 92 :: 34 :: rest => (parseStringBody rest).map (fun p => (34 :: p.1, p.2))
  | 92 :: 92 :: rest => (parseStringBody rest).map (fun p => (92 :: p.1, p.2))
  | 92 :: 117 :: h1 :: h2 :: h3 :: h4 :: rest =>
    match hexVal4 h1 h2 h3 h4 with
    | none => none
    | some code =>
      if 55296 ≤ code ∧ code ≤ 56319 then
        match rest with
        | 92 :: 117 :: g1 :: g2 :: g3 :: g4 :: rest2 =>
          (match hexVal4 g1 g2 g3 g4 with
          | none => none
          | some lo =>
            if 56320 ≤ lo ∧ lo ≤ 57343 then
              (parseStringBody rest2).map
                (fun p => ((65536 + (code - 55296) * 1024 + (lo - 56320)) :: p.1, p.2))
            else none)
        | _ => none
      else if 56320 ≤ code ∧ code ≤ 57343 then none
      else (parseStringBody rest).map (fun p => (code :: p.1, p.2))
  | 92 :: _ => none
  | c :: rest => (parseStringBody rest).map (fun p => (c :: p.1, p.2))

/-- Parse a JSON string including its quotes. -/
def parseString : List Nat → Option (List Nat × List Nat)
  | 34 :: rest => parseStringBody rest
  | _ => none

theorem fromHexDigit_toHexDigit :
    ∀ n : Nat, n < 16 → fromHexDigit (toHexDigit n) = some n := by
  decide

theorem hexVal4_toHexDigits {n : Nat} (h : n < 65536) :
    hexVal4 (toHexDigit (n / 4096 % 16)) (toHexDigit (n / 256 % 16))
      (toHexDigit (n / 16 % 16)) (toHexDigit (n % 16)) = some n := by
  unfold hexVal4
  rw [fromHexDigit_toHexDigit _ (Nat.mod_lt _ (by omega)),
    fromHexDigit_toHexDigit _ (Nat.mod_lt _ (by omega)),
    fromHexDigit_toHexDigit _ (Nat.mod_lt _ (by omega)),
    fromHexDigit_toHexDigit _ (Nat.mod_lt _ (by omega))]
  simp only [Option.bind_eq_bind, Option.some_bind, Option.pure_def]
  congr 1
  omega

theorem parseStringBody_raw {c : Nat} (h34 : c ≠ 34) (h92 : c ≠ 92) (tail : List Nat) :
    parseStringBody (c :: tail) =
      (parseStringBody tail).map (fun p => (c :: p.1, p.2)) := by
  conv_lhs => unfold parseStringBody
  split <;> rename_i heq
  · simp at heq
  · simp only [List.cons.injEq] at heq
    exact absurd heq.1 h34
  · simp only [List.cons.injEq] at heq
    exact absurd heq.1 h92
  · simp only [List.cons.injEq] at heq
    exact absurd heq.1 h92
  · simp only [List.cons.injEq] at heq
    exact absurd heq.1 h92
  · simp only [List.cons.injEq] at heq
    exact absurd heq.1 h92
  · simp only [List.cons.injEq] at heq
    rw [← heq.1, ← heq.2]

theorem parseStringBody_quoteEsc (tail : List Nat) :
    parseStringBody (92 :: 34 :: tail) =
      (parseStringBody tail).map (fun p => (34 :: p.1, p.2)) := rfl

theorem parseStringBody_backslashEsc (tail : List Nat) :
    parseStringBody (92 :: 92 :: tail) =
      (parseStringBody tail).map (fun p => (92 :: p.1, p.2)) := rfl

theorem parseStringBody_uEsc (h1 h2 h3 h4 : Nat) (tail : List Nat) {code : Nat}
    (hhex : hexVal4 h1 h2 h3 h4 = some code)
    (hno : ¬(55296 ≤ code ∧ code ≤ 56319))
    (hno2 : ¬(56320 ≤ code ∧ code ≤ 57343)) :
    parseStringBody (92 :: 117 :: h1 :: h2 :: h3 :: h4 :: tail) =
      (parseStringBody tail).map (fun p => (code :: p.1, p.2)) := by
  conv_lhs => unfold parseStringBody
  rw [hhex]
  try simp only []
  rw [if_neg hno, if_neg hno2]

theorem parseStringBody_uEscPair (h1 h2 h3 h4 g1 g2 g3 g4 : Nat) (tail : List Nat)
    {code lo : Nat} (hhex : hexVal4 h1 h2 h3 h4 = some code)
    (hhi : 55296 ≤ code ∧ code ≤ 56319)
    (hhex2 : hexVal4 g1 g2 g3 g4 = some lo)
    (hlo : 56320 ≤ lo ∧ lo ≤ 57343) :
    parseStringBody
        (92 :: 117 :: h1 :: h2 :: h3 :: h4 :: 92 :: 117 :: g1 :: g2 :: g3 :: g4 :: tail) =
      (parseStringBody tail).map
        (fun p => ((65536 + (code - 55296) * 1024 + (lo - 56320)) :: p.1, p.2)) := by
  conv_lhs => unfold parseStringBody
  rw [hhex]
  try simp only []
  rw [if_pos hhi]
  try simp only []
  rw [hhex2]
  try simp only []
  rw [if_pos hlo]

theorem parseStringBody_escapeString (s : List Nat) (hs : validString s = true)
    (rest : List Nat) :
    parseStringBody (escapeString s ++ (34 :: rest)) = some (s, rest) := by
  induction s with
  | nil => rfl
  | cons c cs ih =>
    have hv : validScalar c = true ∧ validString cs = true := by
      simpa [validString] using hs
    have ihc := ih hv.2
    simp only [escapeString, List.append_assoc]
    by_cases h34 : c = 34
    · subst h34
      show parseStringBody (92 :: 34 :: (escapeString cs ++ (34 :: rest))) = _
      rw [parseStringBody_quoteEsc, ihc]
      rfl
    · by_cases h92 : c = 92
      · subst h92
        show parseStringBody (92 :: 92 :: (escapeString cs ++ (34 :: rest))) = _
        rw [parseStringBody_backslashEsc, ihc]
        rfl
      · have hscal : c < 1114112 ∧ ¬(55296 ≤ c ∧ c ≤ 57343) := by
          have := hv.1
          simp only [validScalar, Bool.and_eq_true, decide_eq_true_eq,
            Bool.not_eq_eq_eq_not, Bool.not_true, Bool.and_eq_false_iff] at this
          constructor
          · exact this.1
          · intro hcon
            rcases this.2 with h | h <;> simp [decide_eq_false_iff_not] at h <;> omega
        by_cases hesc : c < 32 ∨ 128 ≤ c
        · by_cases hbmp : c < 65536
          · have hech : escapeChar c =
                [92, 117, toHexDigit (c / 4096 % 16), toHexDigit (c / 256 % 16),
                 toHexDigit (c / 16 % 16), toHexDigit (c % 16)] := by
              unfold escapeChar
              rw [if_neg h34, if_neg h92, if_pos hesc, if_pos hbmp]
            rw [hech]
            simp only [List.cons_append, List.nil_append]
            rw [parseStringBody_uEsc _ _ _ _ _ (hexVal4_toHexDigits hbmp)
              (by omega) (by omega), ihc]
            rfl
          · have hech : escapeChar c =
                [92, 117, toHexDigit ((55296 + (c - 65536) / 1024) / 4096 % 16),
                 toHexDigit ((55296 + (c - 65536) / 1024) / 256 % 16),
                 toHexDigit ((55296 + (c - 65536) / 1024) / 16 % 16),
                 toHexDigit ((55296 + (c - 65536) / 1024) % 16),
                 92, 117, toHexDigit ((56320 + (c - 65536) % 1024) / 4096 % 16),
                 toHexDigit ((56320 + (c - 65536) % 1024) / 256 % 16),
                 toHexDigit ((56320 + (c - 65536) % 1024) / 16 % 16),
                 toHexDigit ((56320 + (c - 65536) % 1024) % 16)] := by
              unfold escapeChar
              rw [if_neg h34, if_neg h92, if_pos hesc, if_neg hbmp]
            rw [hech]
            simp only [List.cons_append, List.nil_append]
            rw [parseStringBody_uEscPair _ _ _ _ _ _ _ _ _
              (hexVal4_toHexDigits (by omega)) (by omega)
              (hexVal4_toHexDigits (by omega)) (by omega), ihc]
            simp only [Option.map_some']
            have hcomb : 65536 + (55296 + (c - 65536) / 1024 - 55296) * 1024 +
                (56320 + (c - 65536) % 1024 - 56320) = c := by omega
            rw [hcomb]
        · have hech : escapeChar c = [c] := by
            unfold escapeChar
            rw [if_neg h34, if_neg h92, if_neg hesc]
          rw [hech]
          simp only [List.cons_append, List.nil_append]
          rw [parseStringBody_raw h34 h92, ihc]
          rfl

theorem parseString_renderString (s : List Nat) (hs : validString s = true)
    (rest : List Nat) :
    parseString (renderString s ++ rest) = some (s, rest) := by
  show parseString (34 :: (escapeString s ++ [34] ++ rest)) = some (s, rest)
  rw [List.append_assoc]
  exact parseStringBody_escapeString s hs rest

/-!
## Typed payload encoders/decoders

`serde_json` serializes the derived types with fields in declaration
order; the decoders here parse exactly that rigid shape (a faithful model
of the encoder side; the real serde decoder is more lenient about key
order and whitespace, which no claim observes).  The JSON key literals,
as ASCII byte lists:
-/

/-- The byte literal `<obrace><quote>feature_idx<quote>:`. -/
def kNodeFI : List Nat := [123, 34, 102, 101, 97, 116, 117, 114, 101, 95, 105, 100, 120, 34, 58]

/-- The byte literal `,<quote>threshold<quote>:`. -/
def kNodeThr : List Nat := [44, 34, 116, 104, 114, 101, 115, 104, 111, 108, 100, 34, 58]

/-- The byte literal `,<quote>left<quote>:`. -/
def kNodeL : List Nat := [44, 34, 108, 101, 102, 116, 34, 58]

/-- The byte literal `,<quote>right<quote>:`. -/
def kNodeR : List Nat := [44, 34, 114, 105, 103, 104, 116, 34, 58]

/-- The byte literal `<obrace><quote>min<quote>:`. -/
def kBoundsMin : List Nat := [123, 34, 109, 105, 110, 34, 58]

/-- The byte literal `,<quote>max<quote>:`. -/
def kBoundsMax : List Nat := [44, 34, 109, 97, 120, 34, 58]

/-- The byte literal `<obrace><quote>created_at<quote>:`. -/
def kMetaCreated : List Nat := [123, 34, 99, 114, 101, 97, 116, 101, 100, 95, 97, 116, 34, 58]

/-- The byte literal `,<quote>trainer_commit<quote>:`. -/
def kMetaTrainer : List Nat := [44, 34, 116, 114, 97, 105, 110, 101, 114, 95, 99, 111, 109, 109, 105, 116, 34, 58]

/-- The byte literal `,<quote>feature_schema<quote>:`. -/
def kMetaSchema : List Nat := [44, 34, 102, 101, 97, 116, 117, 114, 101, 95, 115, 99, 104, 101, 109, 97, 34, 58]

/-- The byte literal `,<quote>telemetry_hash<quote>:`. -/
def kMetaHash : List Nat := [44, 34, 116, 101, 108, 101, 109, 101, 116, 114, 121, 95, 104, 97, 115, 104, 34, 58]

/-- The byte literal `,<quote>lambda<quote>:`. -/
def kMetaLambda : List Nat := [44, 34, 108, 97, 109, 98, 100, 97, 34, 58]

/-- The byte literal `,<quote>notes<quote>:`. -/
def kMetaNotes : List Nat := [44, 34, 110, 111, 116, 101, 115, 34, 58]

/-- The byte literal `null`. -/
def kNull : List Nat := [110, 117, 108, 108]

/-- Match an exact byte literal, returning the remainder. -/
def expectLit : List Nat → List Nat → Option (List Nat)
  | [], input => some input
  | _ :: _, [] => none
  | l :: ls, c :: cs => if c = l then expectLit ls cs else none

theorem expectLit_append (lit rest : List Nat) :
    expectLit lit (lit ++ rest) = some rest := by
  induction lit with
  | nil => rfl
  | cons l ls ih => simp [expectLit, ih]

/-- Render an `f32`: finite values as a JSON number, NaN and the
infinities as `null` (serde's behaviour). -/
def renderF32 : F32 → List Nat
  | F32.fin q => renderQ q
  | _ => kNull

/-- Decode an `f32` from JSON: accepts a number; `null` (and anything
else) fails, as serde's `f32` deserializer does. -/
def parseF32 (input : List Nat) : Option (F32 × List Nat) :=
  (parseNumber input).map (fun p => (F32.fin p.1, p.2))

/-- Finite float whose rational is a decimal fraction (true of every
value an actual `f32` can hold). -/
def isFiniteDecimal : F32 → Bool
  | F32.fin q => isDecimalDen q.den
  | _ => false

theorem parseF32_renderF32 {v : F32} (hv : isFiniteDecimal v = true)
    (rest : List Nat) (hrest : SafeAfterNumber rest) :
    parseF32 (renderF32 v ++ rest) = some (v, rest) := by
  cases v with
  | fin q =>
    simp only [renderF32, parseF32]
    rw [parseNumber_renderQ q (by simpa [isFiniteDecimal] using hv) rest hrest]
    rfl
  | nan => simp [isFiniteDecimal] at hv
  | inf => simp [isFiniteDecimal] at hv
  | neginf => simp [isFiniteDecimal] at hv

/-- Parse a digit run as a bounded unsigned integer (`u8`, `u16`); values
at or above the bound are rejected, as serde rejects out-of-range
integers. -/
def parseBoundedNat (bound : Nat) (input : List Nat) : Option (Nat × List Nat) :=
  match parseNat input with
  | some (n, r) => if n < bound then some (n, r) else none
  | none => none

theorem parseBoundedNat_digits {bound n : Nat} (h : n < bound) (rest : List Nat)
    (hrest : ∀ c, rest.head? = some c → ¬(48 ≤ c ∧ c ≤ 57)) :
    parseBoundedNat bound (natDigits n ++ rest) = some (n, rest) := by
  simp only [parseBoundedNat, parseNat_digits n rest hrest, if_pos h]

/-- Render a JSON array body (elements comma-separated). -/
def renderListAux {α : Type} (re : α → List Nat) : List α → List Nat
  | [] => []
  | [x] => re x
  | x :: y :: xs => re x ++ 44 :: renderListAux re (y :: xs)

/-- Render a JSON array with brackets. -/
def renderArray {α : Type} (re : α → List Nat) (l : List α) : List Nat :=
  91 :: (renderListAux re l ++ [93])

/-- Parse one-or-more comma-separated elements up to the closing `]`. -/
def parseListAux {α : Type} (pe : List Nat → Option (α × List Nat)) :
    Nat → List Nat → Option (List α × List Nat)
  | 0, _ => none
  | fuel + 1, input =>
    match pe input with
    | none => none
    | some (x, r) =>
      match r with
      | 44 :: r2 => (parseListAux pe fuel r2).map (fun p => (x :: p.1, p.2))
      | 93 :: r2 => some ([x], r2)
      | _ => none

/-- Parse a JSON array. -/
def parseArray {α : Type} (pe : List Nat → Option (α × List Nat)) (fuel : Nat)
    (input : List Nat) : Option (List α × List Nat) :=
  match input with
  | 91 :: 93 :: rest => some ([], rest)
  | 91 :: rest => parseListAux pe fuel rest
  | _ => none

theorem parseListAux_render {α : Type} {pe : List Nat → Option (α × List Nat)}
    {re : α → List Nat} :
    ∀ (l : List α), l ≠ [] →
    (∀ x ∈ l, ∀ r : List Nat, (r.head? = some 44 ∨ r.head? = some 93) →
      pe (re x ++ r) = some (x, r)) →
    ∀ fuel, l.length ≤ fuel → ∀ rest,
      parseListAux pe fuel (renderListAux re l ++ (93 :: rest)) = some (l, rest) := by
  intro l
  induction l with
  | nil => intro h; exact absurd rfl h
  | cons x xs ih =>
    intro _ he fuel hfuel rest
    match fuel, hfuel with
    | f + 1, hfuel =>
      cases xs with
      | nil =>
        simp only [renderListAux]
        unfold parseListAux
        rw [he x (List.mem_cons_self _ _) (93 :: rest) (Or.inr rfl)]
      | cons y ys =>
        simp only [renderListAux, List.cons_append, List.append_assoc]
        unfold parseListAux
        rw [he x (List.mem_cons_self _ _) (44 :: (renderListAux re (y :: ys) ++ 93 :: rest))
          (Or.inl rfl)]
        simp only []
        have hxs : (y :: ys : List α) ≠ [] := by simp
        have hemem : ∀ z ∈ (y :: ys : List α), ∀ r : List Nat,
            (r.head? = some 44 ∨ r.head? = some 93) → pe (re z ++ r) = some (z, r) :=
          fun z hz => he z (List.mem_cons_of_mem _ hz)
        have hlen : (y :: ys : List α).length ≤ f := by
          simp only [List.length_cons] at hfuel ⊢
          omega
        rw [ih hxs hemem f hlen rest]
        rfl

theorem parseArray_cons {c : Nat} (hc : c ≠ 93) {α : Type}
    (pe : List Nat → Option (α × List Nat)) (fuel : Nat) (t : List Nat) :
    parseArray pe fuel (91 :: c :: t) = parseListAux pe fuel (c :: t) := by
  conv_lhs => unfold parseArray
  split <;> rename_i heq
  · simp only [List.cons.injEq] at heq
    exact absurd heq.2.1 hc
  · simp only [List.cons.injEq] at heq
    rw [← heq.2]
  · exact (heq (c :: t) rfl).elim

theorem parseArray_render {α : Type} {pe : List Nat → Option (α × List Nat)}
    {re : α → List Nat}
    (l : List α)
    (he : ∀ x ∈ l, ∀ r : List Nat, (r.head? = some 44 ∨ r.head? = some 93) →
      pe (re x ++ r) = some (x, r))
    (hh : ∀ x ∈ l, ∃ c cs, re x = c :: cs ∧ c ≠ 93)
    (fuel : Nat) (hfuel : l.length ≤ fuel) (rest : List Nat) :
    parseArray pe fuel (renderArray re l ++ rest) = some (l, rest) := by
  cases l with
  | nil => rfl
  | cons x xs =>
    obtain ⟨c, cs, hcx, hc93⟩ := hh x (List.mem_cons_self _ _)
    have hshape : renderArray re (x :: xs) ++ rest =
        91 :: (renderListAux re (x :: xs) ++ (93 :: rest)) := by
      simp [renderArray]
    rw [hshape]
    obtain ⟨t, ht⟩ : ∃ t, renderListAux re (x :: xs) ++ (93 :: rest) = c :: t := by
      cases xs with
      | nil => exact ⟨cs ++ 93 :: rest, by simp [renderListAux, hcx]⟩
      | cons y ys =>
        exact ⟨cs ++ 44 :: renderListAux re (y :: ys) ++ 93 :: rest,
          by simp [renderListAux, hcx]⟩
    rw [ht, parseArray_cons hc93, ← ht,
      parseListAux_render (x :: xs) (by simp) he fuel hfuel rest]

/-- Serialize a `TreeNode` as serde does (fields in declaration order). -/
def renderNode (n : TreeNode) : List Nat :=
  kNodeFI ++ natDigits n.featureIdx ++ kNodeThr ++ renderF32 n.threshold ++
  kNodeL ++ natDigits n.left ++ kNodeR ++ natDigits n.right ++ [125]

/-- Well-formed node: `u8`/`u16` fields in range and a JSON-expressible
threshold. -/
def nodeWF (n : TreeNode) : Bool :=
  decide (n.featureIdx < 256) && isFiniteDecimal n.threshold &&
  decide (n.left < 65536) && decide (n.right < 65536)

/-- Decode a `TreeNode`. -/
def parseNode (input : List Nat) : Option (TreeNode × List Nat) := do
  let i1 ← expectLit kNodeFI input
  let (fi, i2) ← parseBoundedNat 256 i1
  let i3 ← expectLit kNodeThr i2
  let (thr, i4) ← parseF32 i3
  let i5 ← expectLit kNodeL i4
  let (l, i6) ← parseBoundedNat 65536 i5
  let i7 ← expectLit kNodeR i6
  let (r, i8) ← parseBoundedNat 65536 i7
  let i9 ← expectLit [125] i8
  pure (⟨fi, thr, l, r⟩, i9)

theorem safeAfterNumber_cons {c : Nat} (h : ¬(48 ≤ c ∧ c ≤ 57) ∧ c ≠ 46 ∧ c ≠ 101 ∧ c ≠ 69)
    (tail : List Nat) : SafeAfterNumber (c :: tail) := by
  intro d hd
  simp only [List.head?_cons, Option.some.injEq] at hd
  subst hd
  exact h

theorem parseNode_renderNode {n : TreeNode} (hwf : nodeWF n = true) (rest : List Nat) :
    parseNode (renderNode n ++ rest) = some (n, rest) := by
  have hwf' : n.featureIdx < 256 ∧ isFiniteDecimal n.threshold = true ∧
      n.left < 65536 ∧ n.right < 65536 := by
    simpa [nodeWF, and_assoc] using hwf
  simp only [renderNode, List.append_assoc]
  unfold parseNode
  rw [expectLit_append]
  simp only [Option.bind_eq_bind, Option.some_bind]
  rw [parseBoundedNat_digits hwf'.1 _ (by intro c hc; simp [kNodeThr] at hc; omega)]
  simp only [Option.some_bind]
  rw [show (kNodeThr ++ (renderF32 n.threshold ++ (kNodeL ++ (natDigits n.left ++
      (kNodeR ++ (natDigits n.right ++ ([125] ++ rest)))))) : List Nat) =
    kNodeThr ++ (renderF32 n.threshold ++ (kNodeL ++ (natDigits n.left ++
      (kNodeR ++ (natDigits n.right ++ (125 :: rest)))))) from rfl]
  rw [expectLit_append]
  simp only [Option.some_bind]
  rw [parseF32_renderF32 hwf'.2.1 _ (by intro c hc; simp [kNodeL] at hc; omega)]
  simp only [Option.some_bind]
  rw [expectLit_append]
  simp only [Option.some_bind]
  rw [parseBoundedNat_digits hwf'.2.2.1 _ (by intro c hc; simp [kNodeR] at hc; omega)]
  simp only [Option.some_bind]
  rw [expectLit_append]
  simp only [Option.some_bind]
  rw [parseBoundedNat_digits hwf'.2.2.2 _ (by intro c hc; simp at hc; omega)]
  simp only [Option.some_bind]
  rw [show (125 :: rest : List Nat) = [125] ++ rest from rfl, expectLit_append]
  rfl

theorem renderInt_head (i : ℤ) :
    ∃ c cs, renderInt i = c :: cs ∧ (c = 45 ∨ (48 ≤ c ∧ c ≤ 57)) := by
  unfold renderInt
  split
  · exact ⟨45, _, rfl, Or.inl rfl⟩
  · obtain ⟨c, cs, hc⟩ : ∃ c cs, natDigits i.natAbs = c :: cs := by
      cases hh : natDigits i.natAbs with
      | nil => exact absurd hh (natDigits_ne_nil _)
      | cons c cs => exact ⟨c, cs, rfl⟩
    exact ⟨c, cs, hc, Or.inr (natDigits_all_digits _ c (by rw [hc]; exact List.mem_cons_self _ _))⟩

theorem renderQ_head (q : ℚ) :
    ∃ c cs, renderQ q = c :: cs ∧ (c = 45 ∨ (48 ≤ c ∧ c ≤ 57)) := by
  unfold renderQ
  split
  · exact renderInt_head q.num
  · obtain ⟨c, cs, hc, hcp⟩ := renderInt_head
      (q.num * ((10 ^ Max.max (countFactors 2 q.den) (countFactors 5 q.den) : Nat) / q.den : Nat))
    exact ⟨c, cs ++ _, by rw [hc]; rfl, hcp⟩

theorem renderF32_head_ne93 (v : F32) : ∃ c cs, renderF32 v = c :: cs ∧ c ≠ 93 := by
  cases v with
  | fin q =>
    obtain ⟨c, cs, hc, hcp⟩ := renderQ_head q
    exact ⟨c, cs, hc, by omega⟩
  | nan => exact ⟨110, _, rfl, by omega⟩
  | inf => exact ⟨110, _, rfl, by omega⟩
  | neginf => exact ⟨110, _, rfl, by omega⟩

theorem renderNode_head_ne93 (n : TreeNode) :
    ∃ c cs, renderNode n = c :: cs ∧ c ≠ 93 :=
  ⟨123, _, rfl, by omega⟩

theorem renderArray_head_ne93 {α : Type} (re : α → List Nat) (l : List α) :
    ∃ c cs, renderArray re l = c :: cs ∧ c ≠ 93 :=
  ⟨91, _, rfl, by omega⟩

theorem renderListAux_length_ge {α : Type} (re : α → List Nat) (l : List α)
    (hne : ∀ x ∈ l, re x ≠ []) : l.length ≤ (renderListAux re l).length := by
  induction l with
  | nil => simp [renderListAux]
  | cons x xs ih =>
    cases xs with
    | nil =>
      have := hne x (List.mem_cons_self _ _)
      simp only [renderListAux, List.length_cons, List.length_nil]
      cases hh : re x with
      | nil => exact absurd hh this
      | cons c cs => simp [hh]
    | cons y ys =>
      have h1 := ih (fun z hz => hne z (List.mem_cons_of_mem _ hz))
      have := hne x (List.mem_cons_self _ _)
      simp only [renderListAux, List.length_append, List.length_cons] at h1 ⊢
      cases hh : re x with
      | nil => exact absurd hh this
      | cons c cs => simp [hh]; omega

theorem renderListAux_mem_length {α : Type} (re : α → List Nat) (l : List α)
    (x : α) (hx : x ∈ l) : (re x).length ≤ (renderListAux re l).length := by
  induction l with
  | nil => simp at hx
  | cons z zs ih =>
    rcases List.mem_cons.mp hx with rfl | hx'
    · cases zs with
      | nil => simp [renderListAux]
      | cons y ys => simp [renderListAux]
    · cases zs with
      | nil => simp at hx'
      | cons y ys =>
        have := ih hx'
        simp only [renderListAux, List.length_append, List.length_cons]
        omega

theorem safeAfterNumber_of_sep {r : List Nat}
    (hr : r.head? = some 44 ∨ r.head? = some 93) : SafeAfterNumber r := by
  intro c hc
  rcases hr with h | h <;> rw [hc] at h <;>
    simp only [Option.some.injEq] at h <;> omega

theorem parseArray_renderF32 (l : List F32) (hwf : ∀ v ∈ l, isFiniteDecimal v = true)
    (fuel : Nat) (hfuel : l.length ≤ fuel) (rest : List Nat) :
    parseArray parseF32 fuel (renderArray renderF32 l ++ rest) = some (l, rest) :=
  parseArray_render l
    (fun v hv r hr => parseF32_renderF32 (hwf v hv) r (safeAfterNumber_of_sep hr))
    (fun v _ => renderF32_head_ne93 v) fuel hfuel rest

theorem parseArray_renderNode (t : List TreeNode) (hwf : ∀ n ∈ t, nodeWF n = true)
    (fuel : Nat) (hfuel : t.length ≤ fuel) (rest : List Nat) :
    parseArray parseNode fuel (renderArray renderNode t ++ rest) = some (t, rest) :=
  parseArray_render t
    (fun n hn r _ => parseNode_renderNode (hwf n hn) r)
    (fun n _ => renderNode_head_ne93 n) fuel hfuel rest

/-- Serialize `Vec<Vec<TreeNode>>` (the model payload). -/
def renderTreesPayload (trees : List (List TreeNode)) : List Nat :=
  renderArray (renderArray renderNode) trees

/-- Deserialize the model payload (strict: must consume the whole
slice, as `serde_json::from_slice` does). -/
def parseTreesPayload (bytes : List Nat) : Option (List (List TreeNode)) :=
  match parseArray (fun i => parseArray parseNode bytes.length i) bytes.length bytes with
  | some (v, []) => some v
  | _ => none

/-- All nodes of all trees well-formed. -/
def treesWF (trees : List (List TreeNode)) : Bool :=
  trees.all (fun t => t.all nodeWF)

theorem renderArray_length {α : Type} (re : α → List Nat) (l : List α) :
    (renderArray re l).length = (renderListAux re l).length + 2 := by
  simp [renderArray]

theorem parseTreesPayload_render (trees : List (List TreeNode))
    (hwf : treesWF trees = true) :
    parseTreesPayload (renderTreesPayload trees) = some trees := by
  have hwf' : ∀ t ∈ trees, ∀ n ∈ t, nodeWF n = true := by
    intro t ht n hn
    have := List.all_eq_true.mp hwf t ht
    exact List.all_eq_true.mp this n hn
  have hfl : trees.length ≤ (renderTreesPayload trees).length := by
    have h1 := renderListAux_length_ge (renderArray renderNode) trees
      (fun t _ => by simp [renderArray])
    rw [renderTreesPayload, renderArray_length]
    omega
  have he : ∀ t ∈ trees, ∀ r : List Nat,
      (r.head? = some 44 ∨ r.head? = some 93) →
      parseArray parseNode (renderTreesPayload trees).length
        (renderArray renderNode t ++ r) = some (t, r) := by
    intro t ht r _
    refine parseArray_renderNode t (hwf' t ht) _ ?_ r
    have h1 : t.length ≤ (renderArray renderNode t).length := by
      have := renderListAux_length_ge renderNode t (fun n _ => by
        obtain ⟨c, cs, hc, _⟩ := renderNode_head_ne93 n
        simp [hc])
      rw [renderArray_length]
      omega
    have h2 : (renderArray renderNode t).length ≤
        (renderListAux (renderArray renderNode) trees).length :=
      renderListAux_mem_length _ trees t ht
    rw [renderTreesPayload, renderArray_length]
    omega
  have hmain := parseArray_render trees he
    (fun t _ => renderArray_head_ne93 renderNode t)
    (renderTreesPayload trees).length hfl []
  rw [List.append_nil] at hmain
  unfold parseTreesPayload
  rw [show (fun i => parseArray parseNode (renderTreesPayload trees).length i) =
    parseArray parseNode (renderTreesPayload trees).length from rfl]
  rw [show renderArray (renderArray renderNode) trees = renderTreesPayload trees from rfl] at hmain
  rw [hmain]

/-- Serialize `OutputBounds` (the bounds payload). -/
def renderBoundsPayload (b : OutputBounds) : List Nat :=
  kBoundsMin ++ (renderArray renderF32 b.min ++
    (kBoundsMax ++ (renderArray renderF32 b.max ++ [125])))

/-- Decode an `OutputBounds` object. -/
def parseBoundsObj (fuel : Nat) (input : List Nat) :
    Option (OutputBounds × List Nat) := do
  let i1 ← expectLit kBoundsMin input
  let (mn, i2) ← parseArray parseF32 fuel i1
  let i3 ← expectLit kBoundsMax i2
  let (mx, i4) ← parseArray parseF32 fuel i3
  let i5 ← expectLit [125] i4
  pure (⟨mn, mx⟩, i5)

/-- Deserialize the bounds payload (strict). -/
def parseBoundsPayload (bytes : List Nat) : Option OutputBounds :=
  match parseBoundsObj bytes.length bytes with
  | some (v, []) => some v
  | _ => none

/-- All bounds entries JSON-expressible. -/
def boundsWF (b : OutputBounds) : Bool :=
  b.min.all isFiniteDecimal && b.max.all isFiniteDecimal

theorem parseBoundsObj_render (b : OutputBounds) (hwf : boundsWF b = true)
    (fuel : Nat) (hfuel : b.min.length ≤ fuel ∧ b.max.length ≤ fuel) (rest : List Nat) :
    parseBoundsObj fuel (renderBoundsPayload b ++ rest) = some (b, rest) := by
  have hb : b.min.all isFiniteDecimal = true ∧ b.max.all isFiniteDecimal = true := by
    simpa [boundsWF] using hwf
  have hmin : ∀ v ∈ b.min, isFiniteDecimal v = true := List.all_eq_true.mp hb.1
  have hmax : ∀ v ∈ b.max, isFiniteDecimal v = true := List.all_eq_true.mp hb.2
  simp only [renderBoundsPayload, List.append_assoc, List.singleton_append,
    List.cons_append, List.nil_append]
  unfold parseBoundsObj
  rw [expectLit_append]
  simp only [Option.bind_eq_bind, Option.some_bind]
  rw [parseArray_renderF32 b.min hmin fuel hfuel.1]
  simp only [Option.some_bind]
  rw [expectLit_append]
  simp only [Option.some_bind]
  rw [parseArray_renderF32 b.max hmax fuel hfuel.2]
  simp only [Option.some_bind]
  rw [show (125 :: rest : List Nat) = [125] ++ rest from rfl, expectLit_append]
  rfl

theorem parseBoundsPayload_render (b : OutputBounds) (hwf : boundsWF b = true) :
    parseBoundsPayload (renderBoundsPayload b) = some b := by
  have hlenmin : b.min.length ≤ (renderBoundsPayload b).length := by
    have h1 := renderListAux_length_ge renderF32 b.min (fun v _ => by
      obtain ⟨c, cs, hc, _⟩ := renderF32_head_ne93 v
      simp [hc])
    simp only [renderBoundsPayload, List.length_append, renderArray_length]
    omega
  have hlenmax : b.max.length ≤ (renderBoundsPayload b).length := by
    have h1 := renderListAux_length_ge renderF32 b.max (fun v _ => by
      obtain ⟨c, cs, hc, _⟩ := renderF32_head_ne93 v
      simp [hc])
    simp only [renderBoundsPayload, List.length_append, renderArray_length]
    omega
  have hmain := parseBoundsObj_render b hwf (renderBoundsPayload b).length
    ⟨hlenmin, hlenmax⟩ []
  rw [List.append_nil] at hmain
  unfold parseBoundsPayload
  rw [hmain]

/-- Serialize `ReflexMetadata` (the metadata payload). -/
def renderMetadataPayload (m : ReflexMetadata) : List Nat :=
  kMetaCreated ++ (renderString m.createdAt ++
    (kMetaTrainer ++ (renderString m.trainerCommit ++
    (kMetaSchema ++ (renderString m.featureSchema ++
    (kMetaHash ++ (renderString m.telemetryHash ++
    (kMetaLambda ++ (renderF32 m.lambda ++
    (kMetaNotes ++ (renderString m.notes ++ [125])))))))))))

/-- Decode a `ReflexMetadata` object. -/
def parseMetadataObj (input : List Nat) : Option (ReflexMetadata × List Nat) := do
  let i1 ← expectLit kMetaCreated input
  let (ca, i2) ← parseString i1
  let i3 ← expectLit kMetaTrainer i2
  let (tc, i4) ← parseString i3
  let i5 ← expectLit kMetaSchema i4
  let (fs, i6) ← parseString i5
  let i7 ← expectLit kMetaHash i6
  let (th, i8) ← parseString i7
  let i9 ← expectLit kMetaLambda i8
  let (lam, i10) ← parseF32 i9
  let i11 ← expectLit kMetaNotes i10
  let (nt, i12) ← parseString i11
  let i13 ← expectLit [125] i12
  pure (⟨ca, tc, fs, th, lam, nt⟩, i13)

/-- Deserialize the metadata payload (strict). -/
def parseMetadataPayload (bytes : List Nat) : Option ReflexMetadata :=
  match parseMetadataObj bytes with
  | some (v, []) => some v
  | _ => none

/-- Metadata with valid scalar strings and a JSON-expressible lambda. -/
def metadataWF (m : ReflexMetadata) : Bool :=
  validString m.createdAt && validString m.trainerCommit &&
  validString m.featureSchema && validString m.telemetryHash &&
  isFiniteDecimal m.lambda && validString m.notes

theorem parseMetadataObj_render (m : ReflexMetadata) (hwf : metadataWF m = true)
    (rest : List Nat) :
    parseMetadataObj (renderMetadataPayload m ++ rest) = some (m, rest) := by
  have hw : validString m.createdAt = true ∧ validString m.trainerCommit = true ∧
      validString m.featureSchema = true ∧ validString m.telemetryHash = true ∧
      isFiniteDecimal m.lambda = true ∧ validString m.notes = true := by
    simpa [metadataWF, and_assoc] using hwf
  simp only [renderMetadataPayload, List.append_assoc, List.singleton_append,
    List.cons_append, List.nil_append]
  unfold parseMetadataObj
  rw [expectLit_append]
  simp only [Option.bind_eq_bind, Option.some_bind]
  rw [parseString_renderString _ hw.1]
  simp only [Option.some_bind]
  rw [expectLit_append]
  simp only [Option.some_bind]
  rw [parseString_renderString _ hw.2.1]
  simp only [Option.some_bind]
  rw [expectLit_append]
  simp only [Option.some_bind]
  rw [parseString_renderString _ hw.2.2.1]
  simp only [Option.some_bind]
  rw [expectLit_append]
  simp only [Option.some_bind]
  rw [parseString_renderString _ hw.2.2.2.1]
  simp only [Option.some_bind]
  rw [expectLit_append]
  simp only [Option.some_bind]
  rw [parseF32_renderF32 hw.2.2.2.2.1 _ (by intro c hc; simp [kMetaNotes] at hc; omega)]
  simp only [Option.some_bind]
  rw [expectLit_append]
  simp only [Option.some_bind]
  rw [parseString_renderString _ hw.2.2.2.2.2]
  simp only [Option.some_bind]
  rw [show (125 :: rest : List Nat) = [125] ++ rest from rfl, expectLit_append]
  rfl

theorem parseMetadataPayload_render (m : ReflexMetadata) (hwf : metadataWF m = true) :
    parseMetadataPayload (renderMetadataPayload m) = some m := by
  have hmain := parseMetadataObj_render m hwf []
  rw [List.append_nil] at hmain
  unfold parseMetadataPayload
  rw [hmain]

/-!
## Container header and the `.reflex` codec
(src/core/reflex-format/src/lib.rs:39-163, 231-333)
-/

/-- `ReflexHeader::new` (lib.rs:42): fresh magic `"NEM1"` and version 1. -/
def ReflexHeader.new (modelType featureCount outputCount createdAtUnix
    modelSizeBytes boundsSizeBytes metadataSizeBytes : Nat) : ReflexHeader :=
  ⟨[78, 69, 77, 49], 1, modelType, featureCount, outputCount, createdAtUnix,
   modelSizeBytes, boundsSizeBytes, metadataSizeBytes⟩

/-- `ReflexHeader::to_bytes` (lib.rs:64): 29 bytes, little-endian fields. -/
def ReflexHeader.toBytes (h : ReflexHeader) : List Nat :=
  h.magic ++ (encodeLE 2 h.version ++ ([h.modelType % 256] ++ ([h.featureCount % 256] ++
    ([h.outputCount % 256] ++ (encodeLE 8 h.createdAtUnix ++
    (encodeLE 4 h.modelSizeBytes ++ (encodeLE 4 h.boundsSizeBytes ++
    encodeLE 4 h.metadataSizeBytes)))))))

/-- `ReflexHeader::from_bytes` (lib.rs:81): reads the fixed-offset fields;
errors when fewer than 29 bytes are given. -/
def ReflexHeader.fromBytes (b : List Nat) : Option ReflexHeader :=
  if b.length < 29 then none
  else some ⟨b.take 4, leVal ((b.drop 4).take 2), leVal ((b.drop 6).take 1),
    leVal ((b.drop 7).take 1), leVal ((b.drop 8).take 1),
    leVal ((b.drop 9).take 8), leVal ((b.drop 17).take 4),
    leVal ((b.drop 21).take 4), leVal ((b.drop 25).take 4)⟩

/-- `ReflexHeader::validate` (lib.rs:155): magic and version checks. -/
def ReflexHeader.validate (h : ReflexHeader) : Bool :=
  h.magic == [78, 69, 77, 49] && h.version == 1

/-- Slice `l[a..b]` (panics in Rust when `b` exceeds the length; the
caller checks that before slicing in this model). -/
def sliceBytes (l : List Nat) (a b : Nat) : List Nat := (l.drop a).take (b - a)

/-- `Reflex::to_bytes` (lib.rs:233): serialize the three payloads, build a
fresh header (model type `DecisionTree = 0`, sizes truncated `as u32`),
concatenate and append the CRC-32. -/
def Reflex.toBytes (r : Reflex) : List Nat :=
  (ReflexHeader.new 0 r.header.featureCount r.header.outputCount r.header.createdAtUnix
      ((renderTreesPayload r.trees).length % 2 ^ 32)
      ((renderBoundsPayload r.bounds).length % 2 ^ 32)
      ((renderMetadataPayload r.metadata).length % 2 ^ 32)).toBytes ++
    (renderTreesPayload r.trees ++ (renderBoundsPayload r.bounds ++
      renderMetadataPayload r.metadata)) ++
    encodeLE 4 (crc32 ((ReflexHeader.new 0 r.header.featureCount r.header.outputCount
      r.header.createdAtUnix
      ((renderTreesPayload r.trees).length % 2 ^ 32)
      ((renderBoundsPayload r.bounds).length % 2 ^ 32)
      ((renderMetadataPayload r.metadata).length % 2 ^ 32)).toBytes ++
      (renderTreesPayload r.trees ++ (renderBoundsPayload r.bounds ++
        renderMetadataPayload r.metadata))))

/-- Result of `Reflex::from_bytes`: success, an `io::Error` return, or a
Rust panic (out-of-range slice). -/
inductive DecodeResult : Type where
  | ok : Reflex → DecodeResult
  | err : DecodeResult
  | panicked : DecodeResult
  deriving DecidableEq

/-- `Reflex::from_bytes` (lib.rs:279-333): length check, CRC check over
all but the last four bytes, header parse and validation, then the three
payload slices in order.  A declared size that overruns the payload makes
the Rust slice expression panic; each `serde_json` failure returns an
error. -/
def Reflex.fromBytes (data : List Nat) : DecodeResult :=
  if data.length < 33 then .err
  else if crc32 (data.take (data.length - 4)) ≠ leVal (data.drop (data.length - 4)) then .err
  else
    match ReflexHeader.fromBytes ((data.take (data.length - 4)).take 29) with
    | none => .err
    | some header =>
      if ¬ header.validate then .err
      else if data.length - 4 < 29 + header.modelSizeBytes then .panicked
      else
        match parseTreesPayload (sliceBytes (data.take (data.length - 4)) 29
            (29 + header.modelSizeBytes)) with
        | none => .err
        | some trees =>
          if data.length - 4 < 29 + header.modelSizeBytes + header.boundsSizeBytes then
            .panicked
          else
            match parseBoundsPayload (sliceBytes (data.take (data.length - 4))
                (29 + header.modelSizeBytes)
                (29 + header.modelSizeBytes + header.boundsSizeBytes)) with
            | none => .err
            | some bounds =>
              if data.length - 4 < 29 + header.modelSizeBytes + header.boundsSizeBytes +
                  header.metadataSizeBytes then .panicked
              else
                match parseMetadataPayload (sliceBytes (data.take (data.length - 4))
                    (29 + header.modelSizeBytes + header.boundsSizeBytes)
                    (29 + header.modelSizeBytes + header.boundsSizeBytes +
                      header.metadataSizeBytes)) with
                | none => .err
                | some metadata => .ok ⟨header, trees, bounds, metadata⟩

theorem reflexHeader_fromBytes_toBytes (mt fc oc ca ms bs mds : Nat)
    (hmt : mt < 256) (hfc : fc < 256) (hoc : oc < 256) (hca : ca < 2 ^ 64)
    (hms : ms < 2 ^ 32) (hbs : bs < 2 ^ 32) (hmds : mds < 2 ^ 32) :
    ReflexHeader.fromBytes (ReflexHeader.new mt fc oc ca ms bs mds).toBytes =
      some ⟨[78, 69, 77, 49], 1, mt, fc, oc, ca, ms, bs, mds⟩ := by
  have hexp : (ReflexHeader.new mt fc oc ca ms bs mds).toBytes =
      78 :: 69 :: 77 :: 49 :: 1 :: 0 :: mt % 256 :: fc % 256 :: oc % 256 ::
        (encodeLE 8 ca ++ (encodeLE 4 ms ++ (encodeLE 4 bs ++ encodeLE 4 mds))) := by
    show [78, 69, 77, 49] ++ (encodeLE 2 1 ++ _) = _
    rw [show encodeLE 2 1 = [1, 0] from rfl]
    rfl
  unfold ReflexHeader.fromBytes
  rw [hexp]
  have hlen : (78 :: 69 :: 77 :: 49 :: 1 :: 0 :: mt % 256 :: fc % 256 :: oc % 256 ::
      (encodeLE 8 ca ++ (encodeLE 4 ms ++ (encodeLE 4 bs ++ encodeLE 4 mds)))).length = 29 := by
    simp [encodeLE_length]
  rw [if_neg (by rw [hlen]; omega)]
  simp only [Option.some.injEq, ReflexHeader.mk.injEq]
  refine ⟨rfl, ?_, ?_, ?_, ?_, ?_, ?_, ?_, ?_⟩
  · show leVal [1, 0] = 1
    simp [leVal]
  · show leVal [mt % 256] = mt
    simp only [leVal]
    omega
  · show leVal [fc % 256] = fc
    simp only [leVal]
    omega
  · show leVal [oc % 256] = oc
    simp only [leVal]
    omega
  · show leVal ((encodeLE 8 ca ++ (encodeLE 4 ms ++ (encodeLE 4 bs ++
        encodeLE 4 mds))).take 8) = ca
    rw [List.take_left' (encodeLE_length 8 ca), leVal_encodeLE]
    omega
  · show leVal (((encodeLE 8 ca ++ (encodeLE 4 ms ++ (encodeLE 4 bs ++
        encodeLE 4 mds))).drop 8).take 4) = ms
    rw [List.drop_left' (encodeLE_length 8 ca),
      List.take_left' (encodeLE_length 4 ms), leVal_encodeLE]
    omega
  · show leVal ((((encodeLE 8 ca ++ (encodeLE 4 ms ++ (encodeLE 4 bs ++
        encodeLE 4 mds))).drop 8).drop 4).take 4) = bs
    rw [List.drop_left' (encodeLE_length 8 ca),
      List.drop_left' (encodeLE_length 4 ms),
      List.take_left' (encodeLE_length 4 bs), leVal_encodeLE]
    omega
  · show leVal (((((encodeLE 8 ca ++ (encodeLE 4 ms ++ (encodeLE 4 bs ++
        encodeLE 4 mds))).drop 8).drop 4).drop 4).take 4) = mds
    rw [List.drop_left' (encodeLE_length 8 ca),
      List.drop_left' (encodeLE_length 4 ms),
      List.drop_left' (encodeLE_length 4 bs),
      List.take_of_length_le (le_of_eq (encodeLE_length 4 mds)), leVal_encodeLE]
    omega

/-- Well-formedness of a `Reflex` under which `to_bytes` emits a buffer
that parses back: byte-sized counts, representable timestamp, payloads
under the `u32` size fields, and JSON-expressible floats throughout. -/
def reflexWF (r : Reflex) : Bool :=
  decide (r.header.featureCount < 256) && decide (r.header.outputCount < 256) &&
  decide (r.header.createdAtUnix < 2 ^ 64) &&
  treesWF r.trees && boundsWF r.bounds && metadataWF r.metadata &&
  decide ((renderTreesPayload r.trees).length < 2 ^ 32) &&
  decide ((renderBoundsPayload r.bounds).length < 2 ^ 32) &&
  decide ((renderMetadataPayload r.metadata).length < 2 ^ 32)

theorem reflex_fromBytes_toBytes (r : Reflex) (hwf : reflexWF r = true) :
    Reflex.fromBytes (Reflex.toBytes r) =
      .ok ⟨⟨[78, 69, 77, 49], 1, 0, r.header.featureCount, r.header.outputCount,
        r.header.createdAtUnix, (renderTreesPayload r.trees).length,
        (renderBoundsPayload r.bounds).length,
        (renderMetadataPayload r.metadata).length⟩,
        r.trees, r.bounds, r.metadata⟩ := by
  simp only [reflexWF, Bool.and_eq_true, decide_eq_true_eq] at hwf
  obtain ⟨⟨⟨⟨⟨⟨⟨⟨h1, h2⟩, h3⟩, htw⟩, hbw⟩, hmw⟩, hsz1⟩, hsz2⟩, hsz3⟩ := hwf
  unfold Reflex.fromBytes Reflex.toBytes
  set P1 := renderTreesPayload r.trees with hP1def
  set P2 := renderBoundsPayload r.bounds with hP2def
  set P3 := renderMetadataPayload r.metadata with hP3def
  have hmod1 : P1.length % 2 ^ 32 = P1.length := Nat.mod_eq_of_lt hsz1
  have hmod2 : P2.length % 2 ^ 32 = P2.length := Nat.mod_eq_of_lt hsz2
  have hmod3 : P3.length % 2 ^ 32 = P3.length := Nat.mod_eq_of_lt hsz3
  set H := (ReflexHeader.new 0 r.header.featureCount r.header.outputCount
    r.header.createdAtUnix (P1.length % 2 ^ 32) (P2.length % 2 ^ 32)
    (P3.length % 2 ^ 32)).toBytes with hHdef
  have hHlen : H.length = 29 := by
    rw [hHdef]
    simp [ReflexHeader.toBytes, ReflexHeader.new, encodeLE_length]
  have hPs : (H ++ (P1 ++ (P2 ++ P3))).length =
      29 + (P1.length + (P2.length + P3.length)) := by
    simp only [List.length_append, hHlen]
  rw [if_neg (by
    simp only [List.length_append, hHlen, encodeLE_length]
    omega)]
  have hL : (H ++ (P1 ++ (P2 ++ P3)) ++
      encodeLE 4 (crc32 (H ++ (P1 ++ (P2 ++ P3))))).length - 4 =
      29 + (P1.length + (P2.length + P3.length)) := by
    simp only [List.length_append, hHlen, encodeLE_length]
    omega
  rw [hL]
  have htake : (H ++ (P1 ++ (P2 ++ P3)) ++
      encodeLE 4 (crc32 (H ++ (P1 ++ (P2 ++ P3))))).take
      (29 + (P1.length + (P2.length + P3.length))) = H ++ (P1 ++ (P2 ++ P3)) :=
    List.take_left' hPs
  have hdropC : (H ++ (P1 ++ (P2 ++ P3)) ++
      encodeLE 4 (crc32 (H ++ (P1 ++ (P2 ++ P3))))).drop
      (29 + (P1.length + (P2.length + P3.length))) =
      encodeLE 4 (crc32 (H ++ (P1 ++ (P2 ++ P3)))) :=
    List.drop_left' hPs
  rw [htake, hdropC]
  have hcrc : leVal (encodeLE 4 (crc32 (H ++ (P1 ++ (P2 ++ P3))))) =
      crc32 (H ++ (P1 ++ (P2 ++ P3))) := by
    rw [leVal_encodeLE, show (256 : ℕ) ^ 4 = 2 ^ 32 from by norm_num]
    exact Nat.mod_eq_of_lt (crc32_lt _)
  rw [if_neg (fun hne => hne hcrc.symm)]
  rw [List.take_left' hHlen]
  have hhdr : ReflexHeader.fromBytes H =
      some ⟨[78, 69, 77, 49], 1, 0, r.header.featureCount, r.header.outputCount,
        r.header.createdAtUnix, P1.length, P2.length, P3.length⟩ := by
    rw [hHdef, reflexHeader_fromBytes_toBytes 0 r.header.featureCount
      r.header.outputCount r.header.createdAtUnix (P1.length % 2 ^ 32)
      (P2.length % 2 ^ 32) (P3.length % 2 ^ 32) (by norm_num) h1 h2 h3
      (Nat.mod_lt _ (by norm_num)) (Nat.mod_lt _ (by norm_num))
      (Nat.mod_lt _ (by norm_num)), hmod1, hmod2, hmod3]
  rw [hhdr]
  simp only []
  rw [if_neg (not_not_intro (by rfl))]
  rw [if_neg (by omega : ¬ (29 + (P1.length + (P2.length + P3.length)) <
    29 + P1.length))]
  have hslice1 : sliceBytes (H ++ (P1 ++ (P2 ++ P3))) 29 (29 + P1.length) = P1 := by
    unfold sliceBytes
    rw [List.drop_left' hHlen, show 29 + P1.length - 29 = P1.length from by omega]
    exact List.take_left' rfl
  have hparse1 : parseTreesPayload P1 = some r.trees := by
    rw [hP1def]
    exact parseTreesPayload_render r.trees htw
  rw [hslice1, hparse1]
  simp only []
  rw [if_neg (by omega : ¬ (29 + (P1.length + (P2.length + P3.length)) <
    29 + P1.length + P2.length))]
  have hassoc2 : H ++ (P1 ++ (P2 ++ P3)) = (H ++ P1) ++ (P2 ++ P3) :=
    (List.append_assoc H P1 (P2 ++ P3)).symm
  have hslice2 : sliceBytes (H ++ (P1 ++ (P2 ++ P3))) (29 + P1.length)
      (29 + P1.length + P2.length) = P2 := by
    unfold sliceBytes
    rw [hassoc2, List.drop_left' (by simp only [List.length_append, hHlen]),
      show 29 + P1.length + P2.length - (29 + P1.length) = P2.length from by omega]
    exact List.take_left' rfl
  have hparse2 : parseBoundsPayload P2 = some r.bounds := by
    rw [hP2def]
    exact parseBoundsPayload_render r.bounds hbw
  rw [hslice2, hparse2]
  simp only []
  rw [if_neg (by omega : ¬ (29 + (P1.length + (P2.length + P3.length)) <
    29 + P1.length + P2.length + P3.length))]
  have hassoc3 : H ++ (P1 ++ (P2 ++ P3)) = ((H ++ P1) ++ P2) ++ P3 := by
    simp only [List.append_assoc]
  have hslice3 : sliceBytes (H ++ (P1 ++ (P2 ++ P3))) (29 + P1.length + P2.length)
      (29 + P1.length + P2.length + P3.length) = P3 := by
    unfold sliceBytes
    rw [hassoc3, List.drop_left' (by simp only [List.length_append, hHlen]),
      show 29 + P1.length + P2.length + P3.length - (29 + P1.length + P2.length) =
        P3.length from by omega]
    exact List.take_of_length_le (le_refl _)
  have hparse3 : parseMetadataPayload P3 = some r.metadata := by
    rw [hP3def]
    exact parseMetadataPayload_render r.metadata hmw
  rw [hslice3, hparse3]

theorem reflex_toBytes_crcOk (r : Reflex) :
    crc32 ((Reflex.toBytes r).take ((Reflex.toBytes r).length - 4)) =
      leVal ((Reflex.toBytes r).drop ((Reflex.toBytes r).length - 4)) := by
  unfold Reflex.toBytes
  set P1 := renderTreesPayload r.trees with hP1def
  set P2 := renderBoundsPayload r.bounds with hP2def
  set P3 := renderMetadataPayload r.metadata with hP3def
  set H := (ReflexHeader.new 0 r.header.featureCount r.header.outputCount
    r.header.createdAtUnix (P1.length % 2 ^ 32) (P2.length % 2 ^ 32)
    (P3.length % 2 ^ 32)).toBytes with hHdef
  have hHlen : H.length = 29 := by
    rw [hHdef]
    simp [ReflexHeader.toBytes, ReflexHeader.new, encodeLE_length]
  have hPs : (H ++ (P1 ++ (P2 ++ P3))).length =
      29 + (P1.length + (P2.length + P3.length)) := by
    simp only [List.length_append, hHlen]
  have hL : (H ++ (P1 ++ (P2 ++ P3)) ++
      encodeLE 4 (crc32 (H ++ (P1 ++ (P2 ++ P3))))).length - 4 =
      29 + (P1.length + (P2.length + P3.length)) := by
    simp only [List.length_append, hHlen, encodeLE_length]
    omega
  rw [hL, List.take_left' hPs, List.drop_left' hPs, leVal_encodeLE,
    show (256 : ℕ) ^ 4 = 2 ^ 32 from by norm_num,
    Nat.mod_eq_of_lt (crc32_lt _)]

theorem reflex_fromBytes_toBytes_treesErr (r : Reflex)
    (h1 : r.header.featureCount < 256) (h2 : r.header.outputCount < 256)
    (h3 : r.header.createdAtUnix < 2 ^ 64)
    (hsz1 : (renderTreesPayload r.trees).length < 2 ^ 32)
    (hsz2 : (renderBoundsPayload r.bounds).length < 2 ^ 32)
    (hsz3 : (renderMetadataPayload r.metadata).length < 2 ^ 32)
    (hfail : parseTreesPayload (renderTreesPayload r.trees) = none) :
    Reflex.fromBytes (Reflex.toBytes r) = .err := by
  unfold Reflex.fromBytes Reflex.toBytes
  set P1 := renderTreesPayload r.trees with hP1def
  set P2 := renderBoundsPayload r.bounds with hP2def
  set P3 := renderMetadataPayload r.metadata with hP3def
  have hmod1 : P1.length % 2 ^ 32 = P1.length := Nat.mod_eq_of_lt hsz1
  have hmod2 : P2.length % 2 ^ 32 = P2.length := Nat.mod_eq_of_lt hsz2
  have hmod3 : P3.length % 2 ^ 32 = P3.length := Nat.mod_eq_of_lt hsz3
  set H := (ReflexHeader.new 0 r.header.featureCount r.header.outputCount
    r.header.createdAtUnix (P1.length % 2 ^ 32) (P2.length % 2 ^ 32)
    (P3.length % 2 ^ 32)).toBytes with hHdef
  have hHlen : H.length = 29 := by
    rw [hHdef]
    simp [ReflexHeader.toBytes, ReflexHeader.new, encodeLE_length]
  have hPs : (H ++ (P1 ++ (P2 ++ P3))).length =
      29 + (P1.length + (P2.length + P3.length)) := by
    simp only [List.length_append, hHlen]
  rw [if_neg (by
    simp only [List.length_append, hHlen, encodeLE_length]
    omega)]
  have hL : (H ++ (P1 ++ (P2 ++ P3)) ++
      encodeLE 4 (crc32 (H ++ (P1 ++ (P2 ++ P3))))).length - 4 =
      29 + (P1.length + (P2.length + P3.length)) := by
    simp only [List.length_append, hHlen, encodeLE_length]
    omega
  rw [hL]
  rw [List.take_left' hPs, List.drop_left' hPs]
  have hcrc : leVal (encodeLE 4 (crc32 (H ++ (P1 ++ (P2 ++ P3))))) =
      crc32 (H ++ (P1 ++ (P2 ++ P3))) := by
    rw [leVal_encodeLE, show (256 : ℕ) ^ 4 = 2 ^ 32 from by norm_num]
    exact Nat.mod_eq_of_lt (crc32_lt _)
  rw [if_neg (fun hne => hne hcrc.symm)]
  rw [List.take_left' hHlen]
  have hhdr : ReflexHeader.fromBytes H =
      some ⟨[78, 69, 77, 49], 1, 0, r.header.featureCount, r.header.outputCount,
        r.header.createdAtUnix, P1.length, P2.length, P3.length⟩ := by
    rw [hHdef, reflexHeader_fromBytes_toBytes 0 r.header.featureCount
      r.header.outputCount r.header.createdAtUnix (P1.length % 2 ^ 32)
      (P2.length % 2 ^ 32) (P3.length % 2 ^ 32) (by norm_num) h1 h2 h3
      (Nat.mod_lt _ (by norm_num)) (Nat.mod_lt _ (by norm_num))
      (Nat.mod_lt _ (by norm_num)), hmod1, hmod2, hmod3]
  rw [hhdr]
  simp only []
  rw [if_neg (not_not_intro (by rfl))]
  rw [if_neg (by omega : ¬ (29 + (P1.length + (P2.length + P3.length)) <
    29 + P1.length))]
  have hslice1 : sliceBytes (H ++ (P1 ++ (P2 ++ P3))) 29 (29 + P1.length) = P1 := by
    unfold sliceBytes
    rw [List.drop_left' hHlen, show 29 + P1.length - 29 = P1.length from by omega]
    exact List.take_left' rfl
  have hparse1 : parseTreesPayload P1 = none := by
    rw [hP1def]
    exact hfail
  rw [hslice1, hparse1]

/-- C2 (amended): for every `Reflex` that is well formed in the
representational sense (`reflexWF`: byte-sized counts, representable
timestamp, `u32`-sized payloads, and finite JSON-expressible floats —
serde_json serializes non-finite floats as `null`, which the typed decode
then rejects), `from_bytes (to_bytes r)` succeeds and yields a reflex
whose trees, bounds and metadata equal `r`'s, and the trailing CRC-32 of
the encoding re-verifies against the preceding bytes. -/
theorem claim_C2_roundtrip (r : Reflex) (hwf : reflexWF r = true) :
    ∃ r' : Reflex, Reflex.fromBytes (Reflex.toBytes r) = .ok r' ∧
      r'.trees = r.trees ∧ r'.bounds = r.bounds ∧ r'.metadata = r.metadata ∧
      crc32 ((Reflex.toBytes r).take ((Reflex.toBytes r).length - 4)) =
        leVal ((Reflex.toBytes r).drop ((Reflex.toBytes r).length - 4)) :=
  ⟨_, reflex_fromBytes_toBytes r hwf, rfl, rfl, rfl, reflex_toBytes_crcOk r⟩

/-- C2 counterexample: `nanReflex` is well formed in the claim's sense
(valid header counts, bounds arrays matching `output_count`, serializable
metadata), yet the round trip fails: the NaN leaf serializes as `null`
and the typed decode rejects it. -/
theorem claim_C2_counterexample :
    nanReflex.header.featureCount < 256 ∧ nanReflex.header.outputCount < 256 ∧
    nanReflex.bounds.min.length = nanReflex.header.outputCount ∧
    nanReflex.bounds.max.length = nanReflex.header.outputCount ∧
    metadataWF nanReflex.metadata = true ∧
    Reflex.fromBytes (Reflex.toBytes nanReflex) = DecodeResult.err := by
  refine ⟨by decide, by decide, rfl, rfl, by with_unfolding_all decide, ?_⟩
  exact reflex_fromBytes_toBytes_treesErr nanReflex (by decide) (by decide)
    (by decide) (by with_unfolding_all decide) (by with_unfolding_all decide)
    (by with_unfolding_all decide) (by with_unfolding_all decide)

set_option maxRecDepth 8000 in
theorem claim_C2_witness :
    reflexWF specReflex = true ∧
    ∃ r' : Reflex, Reflex.fromBytes (Reflex.toBytes specReflex) = .ok r' ∧
      r'.trees = specReflex.trees ∧ r'.bounds = specReflex.bounds ∧
      r'.metadata = specReflex.metadata ∧
      crc32 ((Reflex.toBytes specReflex).take ((Reflex.toBytes specReflex).length - 4)) =
        leVal ((Reflex.toBytes specReflex).drop ((Reflex.toBytes specReflex).length - 4)) :=
  ⟨by with_unfolding_all decide, claim_C2_roundtrip specReflex (by with_unfolding_all decide)⟩

/-- A reflex whose bounds arrays have mismatched lengths (`min = [0]`,
`max = []`), neither matching the header's `output_count = 1`. -/
def arityReflex : Reflex :=
  ⟨specHeader 1 1, [specTree], ⟨[F32.fin 0], []⟩, specMeta⟩

/-- C1 (amended): `Reflex::from_bytes` returns an error when the buffer is
shorter than 33 bytes, when the trailing CRC-32 mismatches, or when the
parsed header fails validation (magic not `"NEM1"` or version not 1); a
declared model-payload size that overruns the buffer causes a Rust panic
(an out-of-range slice), not an error return; and every successful decode
implies the length, CRC, magic and version conditions.  No check relates
the bounds arrays to each other or to `output_count`. -/
theorem claim_C1_failure_conditions :
    (∀ data : List Nat, data.length < 33 → Reflex.fromBytes data = .err) ∧
    (∀ data : List Nat, ¬ data.length < 33 →
      crc32 (data.take (data.length - 4)) ≠ leVal (data.drop (data.length - 4)) →
      Reflex.fromBytes data = .err) ∧
    (∀ data : List Nat, ∀ hdr : ReflexHeader, ¬ data.length < 33 →
      crc32 (data.take (data.length - 4)) = leVal (data.drop (data.length - 4)) →
      ReflexHeader.fromBytes ((data.take (data.length - 4)).take 29) = some hdr →
      hdr.validate = false → Reflex.fromBytes data = .err) ∧
    (∀ data : List Nat, ∀ hdr : ReflexHeader, ¬ data.length < 33 →
      crc32 (data.take (data.length - 4)) = leVal (data.drop (data.length - 4)) →
      ReflexHeader.fromBytes ((data.take (data.length - 4)).take 29) = some hdr →
      hdr.validate = true →
      data.length - 4 < 29 + hdr.modelSizeBytes →
      Reflex.fromBytes data = .panicked) ∧
    (∀ data : List Nat, ∀ r' : Reflex, Reflex.fromBytes data = .ok r' →
      ¬ data.length < 33 ∧
      crc32 (data.take (data.length - 4)) = leVal (data.drop (data.length - 4)) ∧
      r'.header.magic = [78, 69, 77, 49] ∧ r'.header.version = 1) := by
  refine ⟨?_, ?_, ?_, ?_, ?_⟩
  · intro data h
    unfold Reflex.fromBytes
    rw [if_pos h]
  · intro data h33 hne
    unfold Reflex.fromBytes
    rw [if_neg h33, if_pos hne]
  · intro data hdr h33 hcrc hhdr hval
    unfold Reflex.fromBytes
    rw [if_neg h33, if_neg (fun hne => hne hcrc), hhdr]
    simp only []
    rw [if_pos (by simp [hval])]
  · intro data hdr h33 hcrc hhdr hval hover
    unfold Reflex.fromBytes
    rw [if_neg h33, if_neg (fun hne => hne hcrc), hhdr]
    simp only []
    rw [if_neg (not_not_intro hval), if_pos hover]
  · intro data r' h
    unfold Reflex.fromBytes at h
    by_cases h33 : data.length < 33
    · rw [if_pos h33] at h
      exact DecodeResult.noConfusion h
    rw [if_neg h33] at h
    by_cases hcrc : crc32 (data.take (data.length - 4)) ≠
        leVal (data.drop (data.length - 4))
    · rw [if_pos hcrc] at h
      exact DecodeResult.noConfusion h
    rw [if_neg hcrc] at h
    have hcrceq := not_ne_iff.mp hcrc
    rcases hhdr : ReflexHeader.fromBytes ((data.take (data.length - 4)).take 29) with
      _ | hdr
    · rw [hhdr] at h
      exact DecodeResult.noConfusion h
    rw [hhdr] at h
    simp only [] at h
    by_cases hval : hdr.validate = true
    case neg =>
      rw [if_pos hval] at h
      exact DecodeResult.noConfusion h
    rw [if_neg (not_not_intro hval)] at h
    by_cases hov : data.length - 4 < 29 + hdr.modelSizeBytes
    · rw [if_pos hov] at h
      exact DecodeResult.noConfusion h
    rw [if_neg hov] at h
    rcases hpt : parseTreesPayload (sliceBytes (data.take (data.length - 4)) 29
        (29 + hdr.modelSizeBytes)) with _ | trees
    · rw [hpt] at h
      exact DecodeResult.noConfusion h
    rw [hpt] at h
    simp only [] at h
    by_cases hov2 : data.length - 4 < 29 + hdr.modelSizeBytes + hdr.boundsSizeBytes
    · rw [if_pos hov2] at h
      exact DecodeResult.noConfusion h
    rw [if_neg hov2] at h
    rcases hpb : parseBoundsPayload (sliceBytes (data.take (data.length - 4))
        (29 + hdr.modelSizeBytes) (29 + hdr.modelSizeBytes + hdr.boundsSizeBytes)) with
      _ | bounds
    · rw [hpb] at h
      exact DecodeResult.noConfusion h
    rw [hpb] at h
    simp only [] at h
    by_cases hov3 : data.length - 4 < 29 + hdr.modelSizeBytes + hdr.boundsSizeBytes +
        hdr.metadataSizeBytes
    · rw [if_pos hov3] at h
      exact DecodeResult.noConfusion h
    rw [if_neg hov3] at h
    rcases hpm : parseMetadataPayload (sliceBytes (data.take (data.length - 4))
        (29 + hdr.modelSizeBytes + hdr.boundsSizeBytes)
        (29 + hdr.modelSizeBytes + hdr.boundsSizeBytes + hdr.metadataSizeBytes)) with
      _ | metadata
    · rw [hpm] at h
      exact DecodeResult.noConfusion h
    rw [hpm] at h
    simp only [] at h
    injection h with h'
    obtain ⟨hmagic, hver⟩ : hdr.magic = [78, 69, 77, 49] ∧ hdr.version = 1 := by
      simpa only [ReflexHeader.validate, Bool.and_eq_true, beq_iff_eq] using hval
    refine ⟨h33, hcrceq, ?_, ?_⟩
    · rw [← h']
      exact hmagic
    · rw [← h']
      exact hver

set_option maxRecDepth 8000 in
/-- C1 counterexample: the encoding of `arityReflex` — bounds arrays of
differing lengths, neither matching `output_count` — decodes successfully,
so the spec's bounds-arity failure condition does not exist in the code. -/
theorem claim_C1_counterexample :
    arityReflex.bounds.min.length ≠ arityReflex.bounds.max.length ∧
    arityReflex.bounds.max.length ≠ arityReflex.header.outputCount ∧
    ∃ r' : Reflex, Reflex.fromBytes (Reflex.toBytes arityReflex) = .ok r' :=
  ⟨by decide, by decide,
   _, reflex_fromBytes_toBytes arityReflex (by with_unfolding_all decide)⟩

set_option maxRecDepth 8000 in
theorem claim_C1_witness :
    Reflex.fromBytes [] = DecodeResult.err ∧
    Reflex.fromBytes (List.replicate 40 0) = DecodeResult.err :=
  ⟨claim_C1_failure_conditions.1 [] (by decide),
   claim_C1_failure_conditions.2.1 (List.replicate 40 0) (by simp)
     (by with_unfolding_all decide)⟩
